import Mathlib

set_option maxRecDepth 10000

/-!
Verification of the Sudoku generator core in src/sudoku.rs of the
xilem-sudoku repository.

The grid is mirrored as a list of 81 naturals (the Rust code uses an
array of 81 i8 cells; every value the program stores is one of the
literals 0..9 and the only operations on cells are equality tests and
assignments, so Nat is a faithful carrier).  The Rust functions mutate
the grid through a mutable reference; here the grid is threaded
explicitly, and the functions return the grid in the state the Rust
code leaves it after the call.

Randomness: the program draws from the global rand source in two ways,
a uniform integer below a bound (random_range) and a uniform shuffle of
a slice (SliceRandom).  Both are modelled by an oracle stream of
events.  A shuffle event carries an index permutation which is applied
when it really is a permutation of range n and ignored otherwise, so
every oracle value corresponds to a genuinely possible outcome of the
random shuffle, and every possible outcome (every permutation) is
reached by some oracle value.  A number event is reduced modulo the
bound, with the same two properties.  Statements quantified over all
oracles therefore cover exactly the possible executions.

The two recursive search procedures (solve_from and
count_solutions_from) recurse on the cell index, which grows towards
81; they are embedded with an explicit fuel argument that dominates the
recursion depth (the depth from index idx is at most 82 - idx, and
every entry point passes fuel 82), making the recursion structural.
-/

def SIDE : Nat := 9

def CELL_COUNT : Nat := 81

def BLOCK_SIDE : Nat := 3

def MAX_DIFFICULTY_LEVEL : Nat := 7

abbrev Grid := List Nat

/-- Read a cell; in the Rust code every read is in bounds, the default
0 is never actually used on the executions the theorems talk about. -/
def gget (g : Grid) (i : Nat) : Nat := g.getD i 0

/-- One event of the random oracle: either an integer draw or an index
permutation used to resolve a shuffle. -/
inductive RVal where
  | num (k : Nat)
  | idxs (σ : List Nat)
deriving DecidableEq, Repr

abbrev Rng := List RVal

def rngNext : Rng → RVal × Rng
  | [] => (RVal.num 0, [])
  | a :: t => (a, t)

/-- Model of rng().random_range(0..n). -/
def randBelow (n : Nat) (r : Rng) : Nat × Rng :=
  match rngNext r with
  | (RVal.num k, r2) => (k % n, r2)
  | (RVal.idxs _, r2) => (0, r2)

/-- Bool test that σ is a permutation of range n. -/
def isPermOf (σ : List Nat) (n : Nat) : Bool :=
  σ.length == n && (List.range n).all (fun i => σ.contains i)

/-- Model of SliceRandom shuffle on a list of naturals: the oracle
supplies the resulting arrangement as an index permutation. -/
def shuffleL (l : List Nat) (r : Rng) : List Nat × Rng :=
  match rngNext r with
  | (RVal.idxs σ, r2) =>
      (if isPermOf σ l.length then σ.map (fun i => l.getD i 0) else l, r2)
  | (RVal.num _, r2) => (l, r2)

/-- Row of the cell at index i (i / 9 in the source). -/
def rowOf (i : Nat) : Nat := i / SIDE

/-- Column of the cell at index i (i % 9 in the source). -/
def colOf (i : Nat) : Nat := i % SIDE

/-- Block origin index of the cell at index i, the formula
(row/3)*27 + (col/3)*3 from can_place. -/
def blockOrigin (i : Nat) : Nat :=
  (rowOf i / BLOCK_SIDE) * SIDE * BLOCK_SIDE + (colOf i / BLOCK_SIDE) * BLOCK_SIDE

/-- Two indices share a row, a column or a 3x3 block. -/
def sharesUnit (i j : Nat) : Prop :=
  rowOf i = rowOf j ∨ colOf i = colOf j ∨ blockOrigin i = blockOrigin j

instance (i j : Nat) : Decidable (sharesUnit i j) := by
  unfold sharesUnit; infer_instance

/-- Sudoku::can_place: check whether value can be placed at idx
without violating the row, column and block rules. -/
def can_place (g : Grid) (idx : Nat) (value : Nat) : Bool :=
  let r := idx / SIDE
  let c := idx % SIDE
  let row_start := r * SIDE
  ((List.range SIDE).all (fun offset => gget g (row_start + offset) != value)) &&
  ((List.range SIDE).all (fun row => gget g (row * SIDE + c) != value)) &&
  (let br := r / BLOCK_SIDE
   let bc := c / BLOCK_SIDE
   let block_origin := br * SIDE * BLOCK_SIDE + bc * BLOCK_SIDE
   (List.range BLOCK_SIDE).all (fun br2 =>
     (List.range BLOCK_SIDE).all (fun bc2 =>
       gget g (block_origin + bc2 + br2 * SIDE) != value)))

mutual

/-- Sudoku::solve_from.  Returns (success flag, grid after the call,
advanced rng).  On failure the Rust code leaves the grid restored to
its entry state (proved below); fuel 82 dominates the recursion depth
from any idx up to 81. -/
def solve_from : Nat → Grid → Nat → Rng → Bool × Grid × Rng
  | 0, g, _, r => (false, g, r)
  | fuel + 1, g, idx, r =>
    if idx = CELL_COUNT then (true, g, r)
    else if gget g idx ≠ 0 then solve_from fuel g (idx + 1) r
    else
      let dr := shuffleL [1, 2, 3, 4, 5, 6, 7, 8, 9] r
      try_digits fuel g idx dr.1 dr.2

/-- The for loop over the shuffled candidate digits inside solve_from,
including the backtracking reset of the cell after a failed branch. -/
def try_digits : Nat → Grid → Nat → List Nat → Rng → Bool × Grid × Rng
  | _, g, _, [], r => (false, g, r)
  | fuel, g, idx, v :: rest, r =>
    if can_place g idx v then
      match solve_from fuel (g.set idx v) (idx + 1) r with
      | (true, g2, r2) => (true, g2, r2)
      | (false, g2, r2) => try_digits fuel (g2.set idx 0) idx rest r2
    else try_digits fuel g idx rest r

end

mutual

/-- Sudoku::count_solutions_from: count completions from idx, up to
limit, returning also the grid after the call (the code backtracks
every placement, so the grid comes back unchanged, proved below). -/
def count_solutions_from : Nat → Grid → Nat → Nat → Nat × Grid
  | 0, g, _, _ => (0, g)
  | fuel + 1, g, idx, limit =>
    if limit = 0 then (0, g)
    else if idx = CELL_COUNT then (1, g)
    else if gget g idx ≠ 0 then count_solutions_from fuel g (idx + 1) limit
    else count_digits fuel g idx [1, 2, 3, 4, 5, 6, 7, 8, 9] 0 limit

/-- The for v in 1..=9 loop inside count_solutions_from, with the
running count, the early stop at the limit and the backtracking
reset. -/
def count_digits : Nat → Grid → Nat → List Nat → Nat → Nat → Nat × Grid
  | _, g, _, [], count, _ => (count, g)
  | fuel, g, idx, v :: rest, count, limit =>
    if can_place g idx v then
      match count_solutions_from fuel (g.set idx v) (idx + 1) (limit - count) with
      | (found, g2) =>
        let g3 := g2.set idx 0
        let c2 := count + found
        if limit ≤ c2 then (c2, g3)
        else count_digits fuel g3 idx rest c2 limit
    else count_digits fuel g idx rest count limit

end

/-- Sudoku::count_solutions: run the counter on a private copy of the
grid; the pair records the count and the grid the caller still holds
after the call. -/
def count_solutions (g : Grid) (limit : Nat) : Nat :=
  (count_solutions_from (CELL_COUNT + 1) g 0 limit).1

/-- Sudoku::has_unique_solution. -/
def has_unique_solution (g : Grid) : Bool :=
  count_solutions g 2 == 1

/-- Sudoku::col: the nine values of column n. -/
def col (g : Grid) (n : Nat) : List Nat :=
  (List.range SIDE).map (fun r => gget g (r * SIDE + n))

/-- Write the values of vals at the cell indices ι 0, ι 1, ...; shared
shape of Sudoku::set_col and Sudoku::set_block. -/
def setIdxList : Grid → (Nat → Nat) → Nat → List Nat → Grid
  | g, _, _, [] => g
  | g, ι, k, v :: rest => setIdxList (g.set (ι k) v) ι (k + 1) rest

/-- Sudoku::set_col. -/
def set_col (g : Grid) (n : Nat) (vals : List Nat) : Grid :=
  setIdxList g (fun r => r * SIDE + n) 0 vals

/-- Sudoku::block: the nine values of the block at block row br and
block column bc, row by row. -/
def block (g : Grid) (br bc : Nat) : List Nat :=
  (List.range SIDE).map
    (fun k => gget g ((br * BLOCK_SIDE + k / BLOCK_SIDE) * SIDE + (bc * BLOCK_SIDE + k % BLOCK_SIDE)))

/-- Sudoku::set_block. -/
def set_block (g : Grid) (br bc : Nat) (vals : List Nat) : Grid :=
  setIdxList g (fun k => (br * BLOCK_SIDE + k / BLOCK_SIDE) * SIDE + (bc * BLOCK_SIDE + k % BLOCK_SIDE)) 0 vals

/-- The all zero grid a fresh Sudoku starts from. -/
def zeros81 : Grid := List.replicate CELL_COUNT 0

/-- The Sudoku pair: .puzzle mirrors field .0, .solution mirrors field .1. -/
structure Sudoku where
  puzzle : Grid
  solution : Grid
deriving DecidableEq, Repr

/-- Sudoku::new_solved: start from the all zero pair and solve field .0
in place; the success flag is ignored exactly as in the source. -/
def new_solved (r : Rng) : Sudoku × Rng :=
  match solve_from (CELL_COUNT + 1) zeros81 0 r with
  | (_, g, r2) => ({ puzzle := g, solution := zeros81 }, r2)

/-- The level 0 baseline loop of Sudoku::new: clear cell (row, a[row])
for each row, a being the shuffled array of column indices. -/
def clearRows : Grid → Nat → List Nat → Grid
  | g, _, [] => g
  | g, row, c :: rest => clearRows (g.set (row * SIDE + c) 0) (row + 1) rest

/-- The level > 0 baseline loop of Sudoku::new: one uniformly random
column per row. -/
def baselineRand : Grid → List Nat → Rng → Grid × Rng
  | g, [], r => (g, r)
  | g, row :: rest, r =>
    baselineRand (g.set (row * SIDE + (randBelow SIDE r).1) 0) rest (randBelow SIDE r).2

/-- The column coverage repair loop of Sudoku::new. -/
def colRepair : Grid → List Nat → Rng → Grid × Rng
  | g, [], r => (g, r)
  | g, c :: rest, r =>
    if (col g c).contains 0 then colRepair g rest r
    else
      colRepair (set_col g c ((col g c).set (randBelow SIDE r).1 0)) rest
        (randBelow SIDE r).2

/-- The block coverage repair loop of Sudoku::new. -/
def blockRepair : Grid → List (Nat × Nat) → Rng → Grid × Rng
  | g, [], r => (g, r)
  | g, brbc :: rest, r =>
    if (block g brbc.1 brbc.2).contains 0 then blockRepair g rest r
    else
      blockRepair (set_block g brbc.1 brbc.2
        ((block g brbc.1 brbc.2).set (randBelow SIDE r).1 0)) rest (randBelow SIDE r).2

/-- Block iteration order of the two nested repair loops. -/
def blockOrder : List (Nat × Nat) :=
  [(0, 0), (0, 1), (0, 2), (1, 0), (1, 1), (1, 2), (2, 0), (2, 1), (2, 2)]

/-- One iteration body of the difficulty driven extra removal loop:
tentatively clear a nonempty cell, keep the removal when uniqueness
survives, otherwise restore the original digit. -/
def extraStep (g : Grid) (more : Nat) (pos : Nat) : Grid × Nat :=
  if more = 0 then (g, more)
  else if gget g pos ≠ 0 then
    (if has_unique_solution (g.set pos 0) then (g.set pos 0, more - 1)
     else ((g.set pos 0).set pos (gget g pos), more))
  else (g, more)

/-- The difficulty driven extra removal loop over the shuffled
positions, stopping when the budget hits zero. -/
def extraRemoval : Grid → Nat → List Nat → Grid × Nat
  | g, more, [] => (g, more)
  | g, more, pos :: rest =>
    if more = 0 then (g, more)
    else extraRemoval (extraStep g more pos).1 (extraStep g more pos).2 rest

/-- The baseline emptying step of Sudoku::new after the solved grid is
saved: the two sub cases by level. -/
def baselinePhase (level : Nat) (g : Grid) (r : Rng) : Grid × Rng :=
  if level = 0 then
    (clearRows g 0 (shuffleL (List.range SIDE) r).1, (shuffleL (List.range SIDE) r).2)
  else baselineRand g (List.range SIDE) r

/-- State of Sudoku::new after solving and the baseline emptying. -/
def afterBaseline (level : Nat) (r : Rng) : Grid × Rng :=
  baselinePhase level (new_solved r).1.puzzle (new_solved r).2

/-- State of Sudoku::new after the column coverage repair. -/
def afterColRepair (level : Nat) (r : Rng) : Grid × Rng :=
  colRepair (afterBaseline level r).1 (List.range SIDE) (afterBaseline level r).2

/-- State of Sudoku::new after the block coverage repair. -/
def afterBlockRepair (level : Nat) (r : Rng) : Grid × Rng :=
  blockRepair (afterColRepair level r).1 blockOrder (afterColRepair level r).2

/-- Sudoku::new: solve, save the solution, baseline emptying by level,
column repair, block repair, then the uniqueness checked extra
removals over a shuffled list of all 81 positions with budget
level * 7. -/
def Sudoku.new (level : Nat) (r : Rng) : Sudoku × Rng :=
  ({ puzzle := (extraRemoval (afterBlockRepair level r).1 (level * 7)
        (shuffleL (List.range CELL_COUNT) (afterBlockRepair level r).2).1).1,
     solution := (new_solved r).1.puzzle },
   (shuffleL (List.range CELL_COUNT) (afterBlockRepair level r).2).2)

/-- The digits 1..9, the reference content of every row, column and
block of a solved grid. -/
def oneToNine : List Nat := [1, 2, 3, 4, 5, 6, 7, 8, 9]

/-- Sudoku::row: the nine values of row n. -/
def rowList (g : Grid) (n : Nat) : List Nat :=
  (List.range SIDE).map (fun c => gget g (n * SIDE + c))

/-- Implications between decidable propositions are decidable; used by
the decidability instances of the predicates below. -/
instance (priority := low) decidableArrowProp {p q : Prop} [Decidable p] [Decidable q] :
    Decidable (p → q) :=
  if hp : p then
    if hq : q then .isTrue (fun _ => hq) else .isFalse (fun h => hq (h hp))
  else .isTrue (fun h => absurd h hp)

/-- Full validity: 81 cells and every row, column and block is a
permutation of 1..9 (hence in particular no zeros). -/
def validPerm (g : Grid) : Prop :=
  g.length = CELL_COUNT ∧
  (∀ r < SIDE, List.Perm (rowList g r) oneToNine) ∧
  (∀ c < SIDE, List.Perm (col g c) oneToNine) ∧
  (∀ br < BLOCK_SIDE, ∀ bc < BLOCK_SIDE, List.Perm (block g br bc) oneToNine)

instance (g : Grid) : Decidable (validPerm g) := by
  unfold validPerm; infer_instance

/-- The nonzero cells never collide inside a row, column or block. -/
def consistent (g : Grid) : Prop :=
  ∀ i < CELL_COUNT, ∀ j < CELL_COUNT,
    sharesUnit i j → i ≠ j → gget g i ≠ 0 → gget g i ≠ gget g j

instance (g : Grid) : Decidable (consistent g) := by
  unfold consistent
  exact Nat.decidableBallLT CELL_COUNT _

/-- Shape hypothesis for the counting contract: 81 cells holding
digits 0..9, as in the data model of the spec. -/
def wellformed (g : Grid) : Prop :=
  g.length = CELL_COUNT ∧ ∀ i < CELL_COUNT, gget g i ≤ 9

instance (g : Grid) : Decidable (wellformed g) := by
  unfold wellformed; infer_instance

/-- h keeps every clue of g: already filled cells are fixed. -/
def extendsClues (g h : Grid) : Prop :=
  ∀ i < CELL_COUNT, gget g i ≠ 0 → gget h i = gget g i

instance (g h : Grid) : Decidable (extendsClues g h) := by
  unfold extendsClues; infer_instance

/-- A valid completion of the possibly partial grid g. -/
def IsCompletion (g h : Grid) : Prop := extendsClues g h ∧ validPerm h

mutual

/-- Reference enumerator of the valid completions of g from index idx:
filled cells are kept fixed, each empty cell takes every digit 1..9,
and a leaf is kept exactly when the complete grid is valid.  No
pruning and no limit, so its length is the exact completion count. -/
def expandFrom : Nat → Grid → Nat → List Grid
  | 0, _, _ => []
  | fuel + 1, g, idx =>
    if idx = CELL_COUNT then (if validPerm g then [g] else [])
    else if gget g idx ≠ 0 then expandFrom fuel g (idx + 1)
    else expandDigits fuel g idx oneToNine

def expandDigits : Nat → Grid → Nat → List Nat → List Grid
  | _, _, _, [] => []
  | fuel, g, idx, v :: rest =>
    expandFrom fuel (g.set idx v) (idx + 1) ++ expandDigits fuel g idx rest

end

/-- All valid completions of g. -/
def solutionsList (g : Grid) : List Grid := expandFrom (CELL_COUNT + 1) g 0

/-- The exact number of valid completions of g. -/
def numSolutions (g : Grid) : Nat := (solutionsList g).length

/-- The empty cells of g among the 81 board positions. -/
def zeroSet (g : Grid) : Finset Nat :=
  (Finset.range CELL_COUNT).filter (fun i => gget g i = 0)

/-- Number of empty cells. -/
def zcount (g : Grid) : Nat := (zeroSet g).card

/-- A concrete valid solved grid (the cyclic pattern), used as search
target and as witness input. -/
def cyclicGrid : Grid :=
  (List.range CELL_COUNT).map (fun i => (3 * (i / 9) + (i / 9) / 3 + i % 9) % 9 + 1)

/-- Index permutation of range 9 that puts digit d of 1..9 first when
applied to the digit list, steering the solver. -/
def steer (d : Nat) : List Nat :=
  (d - 1) :: (List.range 9).filter (fun x => x ≠ d - 1)

/-- Oracle prefix that steers the backtracking solver straight to
cyclicGrid without any backtracking. -/
def steerRng : Rng :=
  (List.range CELL_COUNT).map (fun i => RVal.idxs (steer (gget cyclicGrid i)))

/-- Oracle for generate(0) whose level 0 permutation leaves the three
stacks of blocks on the diagonal bands without any cleared cell, so
the block coverage repair fires and clears extra cells. -/
def rngBad : Rng :=
  steerRng ++ [RVal.idxs [3, 4, 5, 6, 7, 8, 0, 1, 2]] ++ List.replicate 6 (RVal.num 0)

/-- Oracle for generate(0) whose level 0 permutation touches every
block, so no repair fires. -/
def rngCov : Rng :=
  steerRng ++ [RVal.idxs [0, 3, 6, 1, 4, 7, 2, 5, 8]]

/-- All cells strictly below idx are filled; invariant of both search
recursions along the path from index 0. -/
def filledBelow (g : Grid) (idx : Nat) : Prop :=
  ∀ j, j < idx → gget g j ≠ 0

/-- The grid g is the reference grid G with exactly the cells of S
cleared. -/
def Masked (G g : Grid) (S : Finset Nat) : Prop :=
  g.length = CELL_COUNT ∧
  (∀ i ∈ S, i < CELL_COUNT) ∧
  (∀ i ∈ S, gget g i = 0) ∧
  ∀ i, i < CELL_COUNT → i ∉ S → gget g i = gget G i

/-- The level 0 column permutation drawn by Sudoku::new. -/
def level0Perm (r : Rng) : List Nat :=
  (shuffleL (List.range SIDE) (new_solved r).2).1

/-- The level 0 permutation places a cleared cell in every block: the
condition under which neither repair loop fires. -/
def BlocksCovered (a : List Nat) : Prop :=
  ∀ br, br < BLOCK_SIDE → ∀ bc, bc < BLOCK_SIDE →
    ∃ rw, rw < SIDE ∧ rw / BLOCK_SIDE = br ∧ a.getD rw 0 / BLOCK_SIDE = bc

instance (a : List Nat) : Decidable (BlocksCovered a) := by
  unfold BlocksCovered
  exact Nat.decidableBallLT BLOCK_SIDE _

/-- Fully filled but invalid grid: counterexample input for the
counting contract. -/
def onesGrid : Grid := List.replicate CELL_COUNT 1

/-- The cyclic solved grid with its first cell cleared: a uniquely
solvable puzzle used as witness input. -/
def oneEmptyGrid : Grid := cyclicGrid.set 0 0

/-- Witness input for the can_place characterisation. -/
def pairGrid : Grid := zeros81.set 1 5

/-- The digit loop of the solver, parameterised by the continuation
used for the recursive descent; structural on the digit list, so it
evaluates by reduction. -/
def try_digitsE (f : Grid → Nat → Rng → Bool × Grid × Rng) :
    Grid → Nat → List Nat → Rng → Bool × Grid × Rng
  | g, _, [], r => (false, g, r)
  | g, idx, v :: rest, r =>
    if can_place g idx v then
      match f (g.set idx v) (idx + 1) r with
      | (true, g2, r2) => (true, g2, r2)
      | (false, g2, r2) => try_digitsE f (g2.set idx 0) idx rest r2
    else try_digitsE f g idx rest r

/-- Executable twin of solve_from, structural on the fuel so that it
evaluates by reduction; proved extensionally equal to solve_from
below. -/
def solve_fromE : Nat → Grid → Nat → Rng → Bool × Grid × Rng
  | 0, g, _, r => (false, g, r)
  | fuel + 1, g, idx, r =>
    if idx = CELL_COUNT then (true, g, r)
    else if gget g idx ≠ 0 then solve_fromE fuel g (idx + 1) r
    else
      try_digitsE (solve_fromE fuel) g idx
        (shuffleL [1, 2, 3, 4, 5, 6, 7, 8, 9] r).1
        (shuffleL [1, 2, 3, 4, 5, 6, 7, 8, 9] r).2

/-- The digit loop of the counter, parameterised by the continuation
used for the recursive descent; structural on the digit list. -/
def count_digitsE (f : Grid → Nat → Nat → Nat × Grid) :
    Grid → Nat → List Nat → Nat → Nat → Nat × Grid
  | g, _, [], count, _ => (count, g)
  | g, idx, v :: rest, count, limit =>
    if can_place g idx v then
      match f (g.set idx v) (idx + 1) (limit - count) with
      | (found, g2) =>
        if limit ≤ count + found then (count + found, g2.set idx 0)
        else count_digitsE f (g2.set idx 0) idx rest (count + found) limit
    else count_digitsE f g idx rest count limit

/-- Executable twin of count_solutions_from, structural on the fuel;
proved extensionally equal to count_solutions_from below. -/
def count_solutions_fromE : Nat → Grid → Nat → Nat → Nat × Grid
  | 0, g, _, _ => (0, g)
  | fuel + 1, g, idx, limit =>
    if limit = 0 then (0, g)
    else if idx = CELL_COUNT then (1, g)
    else if gget g idx ≠ 0 then count_solutions_fromE fuel g (idx + 1) limit
    else count_digitsE (count_solutions_fromE fuel) g idx
      [1, 2, 3, 4, 5, 6, 7, 8, 9] 0 limit


theorem gget_eq_getElem {g : Grid} {i : Nat} (h : i < g.length) : gget g i = g[i] := by
  simp [gget, List.getD_eq_getElem?_getD, List.getElem?_eq_getElem h]

theorem gget_eq_zero_of_le {g : Grid} {i : Nat} (h : g.length ≤ i) : gget g i = 0 := by
  unfold gget
  rw [List.getD_eq_getElem?_getD, List.getElem?_eq_none h]
  rfl

theorem gget_set (g : Grid) (i j v : Nat) :
    gget (g.set i v) j = if i = j ∧ i < g.length then v else gget g j := by
  simp only [gget, List.getD_eq_getElem?_getD, List.getElem?_set]
  by_cases hij : i = j
  · subst hij
    by_cases hl : i < g.length
    · simp [hl]
    · simp [hl, List.getElem?_eq_none (Nat.le_of_not_lt hl)]
  · simp [hij]

theorem gget_set_self {g : Grid} {i : Nat} (h : i < g.length) (v : Nat) :
    gget (g.set i v) i = v := by
  simp [gget_set, h]

theorem gget_set_ne {g : Grid} {i : Nat} (v : Nat) {j : Nat} (h : i ≠ j) :
    gget (g.set i v) j = gget g j := by
  simp [gget_set, h]

theorem set_gget (g : Grid) (i : Nat) : g.set i (gget g i) = g := by
  rcases Nat.lt_or_ge i g.length with h | h
  · refine List.ext_getElem (by simp) (fun n h1 h2 => ?_)
    rw [List.getElem_set]
    split
    · next he => subst he; exact gget_eq_getElem h
    · rfl
  · exact List.set_eq_of_length_le h

theorem set_set_restore {g : Grid} {i : Nat} (h : gget g i = 0) (v : Nat) :
    (g.set i v).set i 0 = g := by
  rw [List.set_set, ← h, set_gget]

theorem length_set_eq (g : Grid) (i v : Nat) : (g.set i v).length = g.length := by
  simp

theorem map_getD_range (l : List Nat) :
    (List.range l.length).map (fun i => l.getD i 0) = l := by
  induction l with
  | nil => rfl
  | cons a t ih =>
    have : List.range (t.length + 1) = 0 :: (List.range t.length).map (· + 1) :=
      List.range_succ_eq_map t.length
    simp only [List.length_cons, this, List.map_cons, List.map_map]
    exact congrArg (a :: ·) ih

theorem isPermOf_perm {σ : List Nat} {n : Nat} (h : isPermOf σ n = true) :
    List.Perm σ (List.range n) := by
  simp only [isPermOf, Bool.and_eq_true, beq_iff_eq, List.all_eq_true, List.mem_range] at h
  obtain ⟨hlen, hmem⟩ := h
  have hsub : List.range n ⊆ σ := by
    intro i hi
    have := hmem i (List.mem_range.mp hi)
    simpa using this
  have hsp : List.Subperm (List.range n) σ := (List.nodup_range n).subperm hsub
  have hp : List.Perm (List.range n) σ :=
    hsp.perm_of_length_le (by simp [hlen])
  exact hp.symm

theorem shuffleL_perm (l : List Nat) (r : Rng) : List.Perm (shuffleL l r).1 l := by
  unfold shuffleL
  rcases rngNext r with ⟨v, r2⟩
  cases v with
  | num k => exact List.Perm.refl l
  | idxs σ =>
    simp only
    split
    · next hp =>
      have h1 : List.Perm (σ.map (fun i => l.getD i 0))
          ((List.range l.length).map (fun i => l.getD i 0)) :=
        (isPermOf_perm hp).map _
      rw [map_getD_range] at h1
      exact h1
    · exact List.Perm.refl l

theorem mem_oneToNine {v : Nat} : v ∈ oneToNine ↔ 1 ≤ v ∧ v ≤ 9 := by
  simp [oneToNine]
  omega

/-- The scanned cells of the three loops of can_place are exactly the
indices below 81 sharing a row, column or block with idx. -/
theorem can_place_iff (g : Grid) {idx : Nat} (h : idx < CELL_COUNT) (v : Nat) :
    can_place g idx v = true ↔ ∀ j < CELL_COUNT, sharesUnit idx j → gget g j ≠ v := by
  have h81 : idx < 81 := by simpa [CELL_COUNT] using h
  simp only [can_place, SIDE, BLOCK_SIDE, Bool.and_eq_true, List.all_eq_true,
    List.mem_range, bne_iff_ne, ne_eq]
  constructor
  · rintro ⟨⟨hrow, hcol⟩, hblk⟩ j hj hs
    simp only [CELL_COUNT] at hj
    simp only [sharesUnit, rowOf, colOf, blockOrigin, SIDE, BLOCK_SIDE] at hs
    rcases hs with hs | hs | hs
    · have := hrow (j % 9) (by omega)
      have hj' : idx / 9 * 9 + j % 9 = j := by omega
      rw [hj'] at this
      exact this
    · have := hcol (j / 9) (by omega)
      have hj' : j / 9 * 9 + idx % 9 = j := by omega
      rw [hj'] at this
      exact this
    · have := hblk (j / 9 % 3) (by omega) (j % 9 % 3) (by omega)
      have hj' : idx / 9 / 3 * 9 * 3 + idx % 9 / 3 * 3 + j % 9 % 3 + j / 9 % 3 * 9 = j := by
        omega
      rw [hj'] at this
      exact this
  · intro hall
    refine ⟨⟨?_, ?_⟩, ?_⟩
    · intro o ho
      refine hall (idx / 9 * 9 + o) (by simp only [CELL_COUNT]; omega) ?_
      simp only [sharesUnit, rowOf, SIDE]
      left
      omega
    · intro ro hro
      refine hall (ro * 9 + idx % 9) (by simp only [CELL_COUNT]; omega) ?_
      simp only [sharesUnit, colOf, SIDE]
      right; left
      omega
    · intro b1 hb1 b2 hb2
      refine hall (idx / 9 / 3 * 9 * 3 + idx % 9 / 3 * 3 + b2 + b1 * 9)
        (by simp only [CELL_COUNT]; omega) ?_
      simp only [sharesUnit, rowOf, colOf, blockOrigin, SIDE, BLOCK_SIDE]
      right; right
      omega

theorem oneToNine_nodup : oneToNine.Nodup := by decide

theorem oneToNine_length : oneToNine.length = 9 := by decide

/-- A map over range n has no duplicates iff the function avoids
collisions below n. -/
theorem nodup_map_range_iff {f : Nat → Nat} {n : Nat} :
    ((List.range n).map f).Nodup ↔
      ∀ i, i < n → ∀ j, j < n → i ≠ j → f i ≠ f j := by
  constructor
  · intro hnd i hi j hj hne
    have hp : List.Pairwise (fun a b => f a ≠ f b) (List.range n) :=
      (List.pairwise_map).mp hnd
    have hp2 := List.pairwise_iff_getElem.mp hp
    rcases Nat.lt_or_ge i j with hij | hij
    · have := hp2 i j (by simpa using hi) (by simpa using hj) hij
      simpa [List.getElem_range] using this
    · have hji : j < i := by omega
      have := hp2 j i (by simpa using hj) (by simpa using hi) hji
      simp only [List.getElem_range] at this
      exact fun he => this he.symm
  · intro hcol
    apply List.pairwise_map.mpr
    apply List.pairwise_iff_getElem.mpr
    intro i j hi hj hij
    simp only [List.getElem_range]
    exact hcol i (by simpa using hi) j (by simpa using hj) (by omega)

theorem perm_oneToNine_of {l : List Nat} (hnd : l.Nodup)
    (hsub : ∀ v ∈ l, 1 ≤ v ∧ v ≤ 9) (hlen : l.length = 9) :
    List.Perm l oneToNine := by
  have hsubs : l ⊆ oneToNine := fun v hv => mem_oneToNine.mpr (hsub v hv)
  exact (hnd.subperm hsubs).perm_of_length_le (by rw [hlen, oneToNine_length])

theorem rowList_eq (g : Grid) (n : Nat) :
    rowList g n = (List.range 9).map (fun c => gget g (n * 9 + c)) := rfl

theorem col_eq (g : Grid) (n : Nat) :
    col g n = (List.range 9).map (fun r => gget g (r * 9 + n)) := rfl

theorem block_eq (g : Grid) (br bc : Nat) :
    block g br bc =
      (List.range 9).map (fun k => gget g ((br * 3 + k / 3) * 9 + (bc * 3 + k % 3))) := rfl

theorem gget_mem_rowList {g : Grid} {i : Nat} (h : i < CELL_COUNT) :
    gget g i ∈ rowList g (i / 9) := by
  rw [rowList_eq, List.mem_map]
  refine ⟨i % 9, by simp [List.mem_range]; omega, ?_⟩
  have : i / 9 * 9 + i % 9 = i := by omega
  rw [this]

theorem validPerm_cell_bounds {g : Grid} (hv : validPerm g) :
    ∀ i < CELL_COUNT, 1 ≤ gget g i ∧ gget g i ≤ 9 := by
  intro i hi
  have hrow := hv.2.1 (i / 9) (by simp only [SIDE]; simp only [CELL_COUNT] at hi; omega)
  have hmem : gget g i ∈ rowList g (i / 9) := gget_mem_rowList hi
  have : gget g i ∈ oneToNine := hrow.mem_iff.mp hmem
  exact mem_oneToNine.mp this

theorem validPerm_full {g : Grid} (hv : validPerm g) :
    ∀ i < CELL_COUNT, gget g i ≠ 0 := by
  intro i hi
  have := validPerm_cell_bounds hv i hi
  omega

theorem validPerm_wellformed {g : Grid} (hv : validPerm g) : wellformed g :=
  ⟨hv.1, fun i hi => (validPerm_cell_bounds hv i hi).2⟩

theorem validPerm_consistent {g : Grid} (hv : validPerm g) : consistent g := by
  intro i hi j hj hs hne hnz heq
  simp only [CELL_COUNT] at hi hj
  rcases hs with hrw | hcl | hbk
  · -- same row
    have hperm := hv.2.1 (rowOf i) (by simp only [rowOf, SIDE]; omega)
    have hnd : (rowList g (rowOf i)).Nodup :=
      hperm.nodup_iff.mpr oneToNine_nodup
    rw [rowList_eq] at hnd
    have hfc := nodup_map_range_iff.mp hnd (i % 9) (by omega) (j % 9) (by omega)
      (by simp only [rowOf, SIDE] at hrw; omega)
    apply hfc
    have e1 : rowOf i * 9 + i % 9 = i := by simp only [rowOf, SIDE]; omega
    have e2 : rowOf i * 9 + j % 9 = j := by simp only [rowOf, SIDE] at hrw ⊢; omega
    rw [e1, e2]
    exact heq
  · -- same column
    have hperm := hv.2.2.1 (colOf i) (by simp only [colOf, SIDE]; omega)
    have hnd : (col g (colOf i)).Nodup := hperm.nodup_iff.mpr oneToNine_nodup
    rw [col_eq] at hnd
    have hfc := nodup_map_range_iff.mp hnd (i / 9) (by omega) (j / 9) (by omega)
      (by simp only [colOf, SIDE] at hcl; omega)
    apply hfc
    have e1 : i / 9 * 9 + colOf i = i := by simp only [colOf, SIDE]; omega
    have e2 : j / 9 * 9 + colOf i = j := by simp only [colOf, SIDE] at hcl ⊢; omega
    rw [e1, e2]
    exact heq
  · -- same block
    simp only [blockOrigin, rowOf, colOf, SIDE, BLOCK_SIDE] at hbk
    have hbr : i / 9 / 3 = j / 9 / 3 ∧ i % 9 / 3 = j % 9 / 3 := by omega
    have hperm := hv.2.2.2 (i / 9 / 3) (by simp only [BLOCK_SIDE]; omega)
      (i % 9 / 3) (by simp only [BLOCK_SIDE]; omega)
    have hnd : (block g (i / 9 / 3) (i % 9 / 3)).Nodup :=
      hperm.nodup_iff.mpr oneToNine_nodup
    rw [block_eq] at hnd
    have hfc := nodup_map_range_iff.mp hnd
      (i / 9 % 3 * 3 + i % 9 % 3) (by omega)
      (j / 9 % 3 * 3 + j % 9 % 3) (by omega)
      (by omega)
    apply hfc
    have e1 : (i / 9 / 3 * 3 + (i / 9 % 3 * 3 + i % 9 % 3) / 3) * 9 +
        (i % 9 / 3 * 3 + (i / 9 % 3 * 3 + i % 9 % 3) % 3) = i := by omega
    have e2 : (i / 9 / 3 * 3 + (j / 9 % 3 * 3 + j % 9 % 3) / 3) * 9 +
        (i % 9 / 3 * 3 + (j / 9 % 3 * 3 + j % 9 % 3) % 3) = j := by omega
    rw [e1, e2]
    exact heq

theorem validPerm_of_full {g : Grid} (hwf : wellformed g)
    (hfull : ∀ i < CELL_COUNT, gget g i ≠ 0) (hcons : consistent g) :
    validPerm g := by
  have hb : ∀ i < CELL_COUNT, 1 ≤ gget g i ∧ gget g i ≤ 9 := by
    intro i hi
    have := hwf.2 i hi
    have := hfull i hi
    omega
  refine ⟨hwf.1, ?_, ?_, ?_⟩
  · intro r hr
    simp only [SIDE] at hr
    rw [rowList_eq]
    refine perm_oneToNine_of ?_ ?_ (by simp)
    · apply nodup_map_range_iff.mpr
      intro c1 h1 c2 h2 hne
      refine hcons (r * 9 + c1) (by simp only [CELL_COUNT]; omega)
        (r * 9 + c2) (by simp only [CELL_COUNT]; omega) ?_ (by omega)
        (hfull _ (by simp only [CELL_COUNT]; omega))
      left
      simp only [rowOf, SIDE]
      omega
    · intro v hv
      rw [List.mem_map] at hv
      obtain ⟨c, hc, hcv⟩ := hv
      rw [List.mem_range] at hc
      rw [← hcv]
      exact hb _ (by simp only [CELL_COUNT]; omega)
  · intro c hc
    simp only [SIDE] at hc
    rw [col_eq]
    refine perm_oneToNine_of ?_ ?_ (by simp)
    · apply nodup_map_range_iff.mpr
      intro r1 h1 r2 h2 hne
      refine hcons (r1 * 9 + c) (by simp only [CELL_COUNT]; omega)
        (r2 * 9 + c) (by simp only [CELL_COUNT]; omega) ?_ (by omega)
        (hfull _ (by simp only [CELL_COUNT]; omega))
      right; left
      simp only [colOf, SIDE]
      omega
    · intro v hv
      rw [List.mem_map] at hv
      obtain ⟨r, hr, hrv⟩ := hv
      rw [List.mem_range] at hr
      rw [← hrv]
      exact hb _ (by simp only [CELL_COUNT]; omega)
  · intro br hbr bc hbc
    simp only [BLOCK_SIDE] at hbr hbc
    rw [block_eq]
    refine perm_oneToNine_of ?_ ?_ (by simp)
    · apply nodup_map_range_iff.mpr
      intro k1 h1 k2 h2 hne
      refine hcons ((br * 3 + k1 / 3) * 9 + (bc * 3 + k1 % 3))
        (by simp only [CELL_COUNT]; omega)
        ((br * 3 + k2 / 3) * 9 + (bc * 3 + k2 % 3))
        (by simp only [CELL_COUNT]; omega) ?_ (by omega)
        (hfull _ (by simp only [CELL_COUNT]; omega))
      right; right
      simp only [blockOrigin, rowOf, colOf, SIDE, BLOCK_SIDE]
      omega
    · intro v hv
      rw [List.mem_map] at hv
      obtain ⟨k, hk, hkv⟩ := hv
      rw [List.mem_range] at hk
      rw [← hkv]
      exact hb _ (by simp only [CELL_COUNT]; omega)

/-- Clearing cells of a consistent grid keeps it consistent. -/
theorem consistent_mono {G g : Grid} (hc : consistent G)
    (hsub : ∀ i < CELL_COUNT, gget g i = 0 ∨ gget g i = gget G i) :
    consistent g := by
  intro i hi j hj hs hne hnz heq
  rcases hsub i hi with h0 | hGi
  · exact hnz h0
  rcases hsub j hj with h0 | hGj
  · rw [heq] at hnz
    exact hnz h0
  rw [hGi, hGj] at heq
  rw [hGi] at hnz
  exact hc i hi j hj hs hne hnz heq

theorem sharesUnit_symm {i j : Nat} (h : sharesUnit i j) : sharesUnit j i := by
  rcases h with h | h | h
  · exact Or.inl h.symm
  · exact Or.inr (Or.inl h.symm)
  · exact Or.inr (Or.inr h.symm)

/-- The backtracking counter always hands the grid back exactly as it
received it: the helper loop form, assuming the cell it works on is
empty, as it is at every call site. -/
theorem count_digits_grid {fuel : Nat}
    (hrec : ∀ g idx limit, (count_solutions_from fuel g idx limit).2 = g) :
    ∀ (ds : List Nat) (g : Grid) (idx count limit : Nat), gget g idx = 0 →
      (count_digits fuel g idx ds count limit).2 = g := by
  intro ds
  induction ds with
  | nil =>
    intro g idx count limit h0
    rw [count_digits]
  | cons v rest ih =>
    intro g idx count limit h0
    rw [count_digits]
    by_cases hcp : can_place g idx v = true
    · rw [if_pos hcp]
      have hg2 : (count_solutions_from fuel (g.set idx v) (idx + 1) (limit - count)).2
          = g.set idx v := hrec _ _ _
      rcases hr : count_solutions_from fuel (g.set idx v) (idx + 1) (limit - count)
        with ⟨found, g2⟩
      rw [hr] at hg2
      simp only at hg2
      subst hg2
      have hrest : (g.set idx v).set idx 0 = g := set_set_restore h0 v
      simp only [hrest]
      split
      · rfl
      · exact ih g idx (count + found) limit h0
    · rw [if_neg hcp]
      exact ih g idx count limit h0

/-- count_solutions_from returns the grid unchanged. -/
theorem count_solutions_from_grid :
    ∀ (fuel : Nat) (g : Grid) (idx limit : Nat),
      (count_solutions_from fuel g idx limit).2 = g := by
  intro fuel
  induction fuel with
  | zero =>
    intro g idx limit
    rw [count_solutions_from]
  | succ fuel ih =>
    intro g idx limit
    rw [count_solutions_from]
    by_cases h1 : limit = 0
    · rw [if_pos h1]
    · rw [if_neg h1]
      by_cases h2 : idx = CELL_COUNT
      · rw [if_pos h2]
      · rw [if_neg h2]
        by_cases h3 : gget g idx ≠ 0
        · rw [if_pos h3]
          exact ih g (idx + 1) limit
        · rw [if_neg h3]
          exact count_digits_grid ih _ g idx 0 limit (by omega)

/-- Placing a value allowed by can_place keeps the grid consistent. -/
theorem consistent_set_of_can_place {g : Grid} (hc : consistent g) {idx : Nat}
    (hi : idx < CELL_COUNT) (h0 : gget g idx = 0) {v : Nat} (hv1 : 1 ≤ v)
    (hcp : can_place g idx v = true) : consistent (g.set idx v) := by
  have hiff := (can_place_iff g hi v).mp hcp
  intro i hi' j hj' hs hne hnz heq
  by_cases hieq : i = idx
  · subst hieq
    rw [gget_set_ne v hne] at heq
    by_cases hil : i < g.length
    · rw [gget_set_self hil v] at heq
      exact hiff j hj' hs heq.symm
    · rw [List.set_eq_of_length_le (Nat.le_of_not_lt hil)] at hnz
      exact hnz h0
  · by_cases hjeq : j = idx
    · subst hjeq
      rw [gget_set_ne v (fun h => hieq h.symm)] at heq hnz
      by_cases hjl : j < g.length
      · rw [gget_set_self hjl v] at heq
        exact hiff i hi' (sharesUnit_symm hs) heq
      · rw [List.set_eq_of_length_le (Nat.le_of_not_lt hjl)] at heq
        rw [heq] at hnz
        exact hnz h0
    · rw [gget_set_ne v (fun h => hieq h.symm)] at heq hnz
      rw [gget_set_ne v (fun h => hjeq h.symm)] at heq
      exact hc i hi' j hj' hs hne hnz heq

/-- A placement refused by can_place creates an inconsistency. -/
theorem not_consistent_of_not_can_place {g : Grid} {idx v : Nat}
    (hi : idx < CELL_COUNT) (hlen : g.length = CELL_COUNT) (h0 : gget g idx = 0)
    (hv1 : 1 ≤ v) (hcp : can_place g idx v ≠ true) :
    ¬ consistent (g.set idx v) := by
  intro hcons
  apply hcp
  rw [can_place_iff g hi v]
  intro j hj hs heq
  by_cases hji : j = idx
  · subst hji
    omega
  · have hidxl : idx < g.length := by omega
    have h1 : gget (g.set idx v) idx = v := gget_set_self hidxl v
    have h2 : gget (g.set idx v) j = v := by
      rw [gget_set_ne v (fun h => hji h.symm)]
      exact heq
    have := hcons idx hi j hj hs (fun h => hji h.symm) (by omega)
    rw [h1, h2] at this
    exact this rfl

theorem filledBelow_zero (g : Grid) : filledBelow g 0 := by
  intro j hj
  omega

theorem filledBelow_succ_of_ne {g : Grid} {idx : Nat} (hf : filledBelow g idx)
    (h : gget g idx ≠ 0) : filledBelow g (idx + 1) := by
  intro j hj
  rcases Nat.lt_or_ge j idx with hlt | hge
  · exact hf j hlt
  · have : j = idx := by omega
    rw [this]
    exact h

theorem filledBelow_set {g : Grid} {idx : Nat} (hf : filledBelow g idx)
    (hlen : idx < g.length) {v : Nat} (hv : 1 ≤ v) :
    filledBelow (g.set idx v) (idx + 1) := by
  intro j hj
  by_cases hje : j = idx
  · subst hje
    rw [gget_set_self hlen v]
    omega
  · rw [gget_set_ne v (fun h => hje h.symm)]
    exact hf j (by omega)

theorem grid_eq_of_gget {g h : Grid} (hg : g.length = CELL_COUNT)
    (hh : h.length = CELL_COUNT) (he : ∀ i < CELL_COUNT, gget g i = gget h i) :
    g = h := by
  refine List.ext_getElem (by omega) (fun n h1 h2 => ?_)
  have hn : n < CELL_COUNT := by omega
  have := he n hn
  rw [gget_eq_getElem h1, gget_eq_getElem h2] at this
  exact this

theorem mem_expandDigits {fuel : Nat} {g : Grid} {idx : Nat} {h : Grid} :
    ∀ {ds : List Nat}, h ∈ expandDigits fuel g idx ds ↔
      ∃ v ∈ ds, h ∈ expandFrom fuel (g.set idx v) (idx + 1) := by
  intro ds
  induction ds with
  | nil => simp [expandDigits]
  | cons v rest ih =>
    rw [expandDigits, List.mem_append, ih]
    constructor
    · rintro (hm | ⟨w, hw, hm⟩)
      · exact ⟨v, List.mem_cons_self v rest, hm⟩
      · exact ⟨w, List.mem_cons_of_mem v hw, hm⟩
    · rintro ⟨w, hw, hm⟩
      rcases List.mem_cons.mp hw with he | hr
      · subst he
        exact Or.inl hm
      · exact Or.inr ⟨w, hr, hm⟩

/-- Adequacy of the reference enumerator: its members are exactly the
valid completions. -/
theorem mem_expandFrom :
    ∀ (fuel : Nat) {g : Grid} {idx : Nat} {h : Grid},
      CELL_COUNT - idx < fuel → idx ≤ CELL_COUNT → g.length = CELL_COUNT →
      filledBelow g idx →
      (h ∈ expandFrom fuel g idx ↔ extendsClues g h ∧ validPerm h) := by
  intro fuel
  induction fuel with
  | zero =>
    intro g idx h hfu
    omega
  | succ fuel ih =>
    intro g idx h hfu hidx hlen hfb
    rw [expandFrom]
    by_cases hend : idx = CELL_COUNT
    · rw [if_pos hend]
      have hgfull : ∀ i < CELL_COUNT, gget g i ≠ 0 := by
        intro i hi
        exact hfb i (by omega)
      constructor
      · intro hm
        have hvg : validPerm g := by
          by_contra hng
          rw [if_neg hng] at hm
          exact (List.not_mem_nil h) hm
        rw [if_pos hvg] at hm
        have : h = g := List.mem_singleton.mp hm
        subst this
        exact ⟨fun i hi hnz => rfl, hvg⟩
      · rintro ⟨hext, hv⟩
        have hhg : g = h :=
          grid_eq_of_gget hlen hv.1 (fun i hi => (hext i hi (hgfull i hi)).symm)
        subst hhg
        rw [if_pos hv]
        exact List.mem_singleton.mpr rfl
    · rw [if_neg hend]
      have hidx' : idx < CELL_COUNT := by omega
      by_cases hcell : gget g idx ≠ 0
      · rw [if_pos hcell]
        rw [ih (by omega) (by omega) hlen (filledBelow_succ_of_ne hfb hcell)]
      · rw [if_neg hcell]
        have h0 : gget g idx = 0 := by omega
        have hlt : idx < g.length := by omega
        rw [mem_expandDigits]
        constructor
        · rintro ⟨v, hvmem, hm⟩
          have hvb := mem_oneToNine.mp hvmem
          have := (ih (by omega) (by omega) (by simpa using hlen)
            (filledBelow_set hfb hlt hvb.1)).mp hm
          refine ⟨?_, this.2⟩
          intro i hi hnz
          have hine : idx ≠ i := by
            intro he
            rw [← he] at hnz
            exact hnz h0
          have := this.1 i hi (by rwa [gget_set_ne v hine])
          rwa [gget_set_ne v hine] at this
        · rintro ⟨hext, hv⟩
          refine ⟨gget h idx, ?_, ?_⟩
          · exact mem_oneToNine.mpr (validPerm_cell_bounds hv idx hidx')
          · rw [ih (by omega) (by omega) (by simpa using hlen)
              (filledBelow_set hfb hlt (validPerm_cell_bounds hv idx hidx').1)]
            refine ⟨?_, hv⟩
            intro i hi hnz
            by_cases hie : i = idx
            · subst hie
              rw [gget_set_self hlt]
            · rw [gget_set_ne _ (fun he => hie he.symm)] at hnz ⊢
              exact hext i hi hnz

theorem wellformed_set {g : Grid} (hwf : wellformed g) {v : Nat} (hv : v ≤ 9)
    (idx : Nat) : wellformed (g.set idx v) := by
  refine ⟨by simpa using hwf.1, ?_⟩
  intro i hi
  rw [gget_set]
  split
  · exact hv
  · exact hwf.2 i hi

theorem expandDigits_length (fuel : Nat) (g : Grid) (idx : Nat) :
    ∀ ds : List Nat, (expandDigits fuel g idx ds).length =
      (ds.map (fun v => (expandFrom fuel (g.set idx v) (idx + 1)).length)).sum := by
  intro ds
  induction ds with
  | nil => rw [expandDigits]; rfl
  | cons v rest ih =>
    rw [expandDigits]
    simp only [List.length_append, List.map_cons, List.sum_cons, ih]

theorem expandFrom_nil_of_not_consistent :
    ∀ (fuel : Nat) {g : Grid} {idx : Nat}, ¬ consistent g →
      expandFrom fuel g idx = [] := by
  intro fuel
  induction fuel with
  | zero =>
    intro g idx hng
    rw [expandFrom]
  | succ fuel ih =>
    intro g idx hng
    rw [expandFrom]
    by_cases hend : idx = CELL_COUNT
    · rw [if_pos hend]
      have : ¬ validPerm g := fun hv => hng (validPerm_consistent hv)
      rw [if_neg this]
    · rw [if_neg hend]
      by_cases hcell : gget g idx ≠ 0
      · rw [if_pos hcell]
        exact ih hng
      · rw [if_neg hcell]
        have h0 : gget g idx = 0 := by omega
        have hset : ∀ v : Nat, ¬ consistent (g.set idx v) := by
          intro v hcons
          apply hng
          refine consistent_mono hcons ?_
          intro i hi
          by_cases hie : i = idx
          · subst hie
            exact Or.inl h0
          · exact Or.inr (gget_set_ne v (fun h => hie h.symm)).symm
        have : ∀ ds : List Nat, expandDigits fuel g idx ds = [] := by
          intro ds
          induction ds with
          | nil => rw [expandDigits]
          | cons v rest ihd =>
            rw [expandDigits, ih (hset v), ihd]
            rfl
        exact this oneToNine

theorem expandFrom_nodup :
    ∀ (fuel : Nat) {g : Grid} {idx : Nat},
      CELL_COUNT - idx < fuel → idx ≤ CELL_COUNT → g.length = CELL_COUNT →
      filledBelow g idx → (expandFrom fuel g idx).Nodup := by
  intro fuel
  induction fuel with
  | zero =>
    intro g idx hfu
    omega
  | succ fuel ih =>
    intro g idx hfu hidx hlen hfb
    rw [expandFrom]
    by_cases hend : idx = CELL_COUNT
    · rw [if_pos hend]
      split
      · exact List.nodup_singleton _
      · exact List.nodup_nil
    · rw [if_neg hend]
      have hidx' : idx < CELL_COUNT := by omega
      by_cases hcell : gget g idx ≠ 0
      · rw [if_pos hcell]
        exact ih (by omega) (by omega) hlen (filledBelow_succ_of_ne hfb hcell)
      · rw [if_neg hcell]
        have h0 : gget g idx = 0 := by omega
        have hlt : idx < g.length := by omega
        have key : ∀ ds : List Nat, ds.Nodup → (∀ v ∈ ds, 1 ≤ v ∧ v ≤ 9) →
            (expandDigits fuel g idx ds).Nodup := by
          intro ds
          induction ds with
          | nil =>
            intro hnd hb
            rw [expandDigits]
            exact List.nodup_nil
          | cons v rest ihd =>
            intro hnd hb
            rw [expandDigits]
            have hvb := hb v (List.mem_cons_self v rest)
            refine List.Nodup.append ?_ ?_ ?_
            · exact ih (by omega) (by omega) (by simpa using hlen)
                (filledBelow_set hfb hlt hvb.1)
            · exact ihd (List.nodup_cons.mp hnd).2
                (fun w hw => hb w (List.mem_cons_of_mem v hw))
            · intro h hm1 hm2
              have hval1 : gget h idx = v := by
                have := ((mem_expandFrom fuel (by omega) (by omega)
                  (by simpa using hlen) (filledBelow_set hfb hlt hvb.1)).mp hm1).1
                have hx := this idx hidx' (by rw [gget_set_self hlt]; omega)
                rwa [gget_set_self hlt] at hx
              obtain ⟨w, hwmem, hm⟩ := mem_expandDigits.mp hm2
              have hwb := hb w (List.mem_cons_of_mem v hwmem)
              have hval2 : gget h idx = w := by
                have := ((mem_expandFrom fuel (by omega) (by omega)
                  (by simpa using hlen) (filledBelow_set hfb hlt hwb.1)).mp hm).1
                have hx := this idx hidx' (by rw [gget_set_self hlt]; omega)
                rwa [gget_set_self hlt] at hx
              have : v = w := hval1.symm.trans hval2
              subst this
              exact (List.nodup_cons.mp hnd).1 hwmem
        exact key oneToNine oneToNine_nodup (fun v hv => mem_oneToNine.mp hv)

/-- The candidate loop of the counter computes the truncated sum of
the per digit completion counts. -/
theorem count_digits_eq {fuel : Nat} {g : Grid} {idx : Nat}
    (h0 : gget g idx = 0) :
    ∀ (ds : List Nat) (count limit : Nat), count < limit →
      (∀ v ∈ ds, can_place g idx v = true →
        ∀ lim, (count_solutions_from fuel (g.set idx v) (idx + 1) lim).1 =
          min lim (expandFrom fuel (g.set idx v) (idx + 1)).length) →
      (∀ v ∈ ds, can_place g idx v ≠ true →
        (expandFrom fuel (g.set idx v) (idx + 1)).length = 0) →
      (count_digits fuel g idx ds count limit).1 =
        min limit (count + (ds.map
          (fun v => (expandFrom fuel (g.set idx v) (idx + 1)).length)).sum) := by
  intro ds
  induction ds with
  | nil =>
    intro count limit hcl hpos hneg
    rw [count_digits]
    simp only [List.map_nil, List.sum_nil, Nat.add_zero]
    omega
  | cons v rest ih =>
    intro count limit hcl hpos hneg
    rw [count_digits]
    simp only [List.map_cons, List.sum_cons]
    by_cases hcp : can_place g idx v = true
    · rw [if_pos hcp]
      have hfound := hpos v (List.mem_cons_self v rest) hcp (limit - count)
      have hgrid : (count_solutions_from fuel (g.set idx v) (idx + 1) (limit - count)).2
          = g.set idx v := count_solutions_from_grid fuel _ _ _
      rcases hr : count_solutions_from fuel (g.set idx v) (idx + 1) (limit - count)
        with ⟨found, g2⟩
      rw [hr] at hfound hgrid
      simp only at hfound hgrid
      subst hgrid
      have hrest : (g.set idx v).set idx 0 = g := set_set_restore h0 v
      simp only [hrest]
      by_cases hbr : limit ≤ count + found
      · rw [if_pos hbr]
        simp only
        omega
      · rw [if_neg hbr]
        have := ih (count + found) limit (by omega)
          (fun w hw => hpos w (List.mem_cons_of_mem v hw))
          (fun w hw => hneg w (List.mem_cons_of_mem v hw))
        rw [this]
        omega
    · rw [if_neg hcp]
      have hz := hneg v (List.mem_cons_self v rest) hcp
      rw [ih count limit hcl
        (fun w hw => hpos w (List.mem_cons_of_mem v hw))
        (fun w hw => hneg w (List.mem_cons_of_mem v hw))]
      rw [hz]
      omega

/-- The bounded counter equals the limit truncated exact completion
count, on grids with digits 0..9, consistent clues and a filled
prefix. -/
theorem count_eq_min :
    ∀ (fuel : Nat) {g : Grid} {idx limit : Nat},
      CELL_COUNT - idx < fuel → idx ≤ CELL_COUNT → wellformed g → consistent g →
      filledBelow g idx →
      (count_solutions_from fuel g idx limit).1 =
        min limit (expandFrom fuel g idx).length := by
  intro fuel
  induction fuel with
  | zero =>
    intro g idx limit hfu
    omega
  | succ fuel ih =>
    intro g idx limit hfu hidx hwf hcons hfb
    rw [count_solutions_from, expandFrom]
    by_cases h1 : limit = 0
    · rw [if_pos h1]
      simp [h1]
    · rw [if_neg h1]
      by_cases h2 : idx = CELL_COUNT
      · rw [if_pos h2, if_pos h2]
        have hfull : ∀ i < CELL_COUNT, gget g i ≠ 0 := by
          intro i hi
          exact hfb i (by omega)
        have hv : validPerm g := validPerm_of_full hwf hfull hcons
        rw [if_pos hv]
        simp only [List.length_singleton]
        omega
      · rw [if_neg h2, if_neg h2]
        have hidx' : idx < CELL_COUNT := by omega
        by_cases h3 : gget g idx ≠ 0
        · rw [if_pos h3, if_pos h3]
          exact ih (by omega) (by omega) hwf hcons (filledBelow_succ_of_ne hfb h3)
        · rw [if_neg h3, if_neg h3]
          have h0 : gget g idx = 0 := by omega
          have hlt : idx < g.length := by
            have := hwf.1
            omega
          have heq := count_digits_eq h0 oneToNine 0 limit (by omega)
            (fun v hv hcp lim => by
              have hvb := mem_oneToNine.mp hv
              exact ih (by omega) (by omega)
                (wellformed_set hwf hvb.2 idx)
                (consistent_set_of_can_place hcons hidx' h0 hvb.1 hcp)
                (filledBelow_set hfb hlt hvb.1))
            (fun v hv hcp => by
              have hvb := mem_oneToNine.mp hv
              rw [expandFrom_nil_of_not_consistent fuel
                (not_consistent_of_not_can_place hidx' hwf.1 h0 hvb.1 hcp)]
              rfl)
          have hds : ([1, 2, 3, 4, 5, 6, 7, 8, 9] : List Nat) = oneToNine := rfl
          rw [hds, heq, expandDigits_length]
          omega

theorem extendsClues_trans {a b c : Grid} (h1 : extendsClues a b)
    (h2 : extendsClues b c) : extendsClues a c := by
  intro i hi hnz
  have hb := h1 i hi hnz
  have : gget b i ≠ 0 := by rw [hb]; exact hnz
  rw [h2 i hi this, hb]

theorem extendsClues_set {g : Grid} {idx : Nat} (h0 : gget g idx = 0) (v : Nat) :
    extendsClues g (g.set idx v) := by
  intro i hi hnz
  have hne : idx ≠ i := by
    intro he
    rw [← he] at hnz
    exact hnz h0
  exact gget_set_ne v hne

/-- On failure try_digits leaves the grid as it was (assuming the
solver recursion below it restores, which the next theorem supplies by
induction on fuel). -/
theorem try_digits_grid_of_false {fuel : Nat}
    (hrec : ∀ {g idx r g2 r2}, solve_from fuel g idx r = (false, g2, r2) → g2 = g) :
    ∀ (ds : List Nat) {g : Grid} {idx : Nat} {r : Rng} {g2 : Grid} {r2 : Rng},
      gget g idx = 0 → try_digits fuel g idx ds r = (false, g2, r2) → g2 = g := by
  intro ds
  induction ds with
  | nil =>
    intro g idx r g2 r2 h0 he
    rw [try_digits] at he
    simp only [Prod.mk.injEq] at he
    exact he.2.1.symm
  | cons v rest ih =>
    intro g idx r g2 r2 h0 he
    rw [try_digits] at he
    by_cases hcp : can_place g idx v = true
    · rw [if_pos hcp] at he
      rcases hr : solve_from fuel (g.set idx v) (idx + 1) r with ⟨b, g3, r3⟩
      rw [hr] at he
      cases b
      · simp only at he
        have hg3 : g3 = g.set idx v := hrec hr
        subst hg3
        rw [set_set_restore h0 v] at he
        exact ih h0 he
      · simp only [Prod.mk.injEq] at he
        exact absurd he.1 (by simp)
    · rw [if_neg hcp] at he
      exact ih h0 he

/-- On failure solve_from leaves the grid as it was: the Rust code
resets every tried cell on backtracking. -/
theorem solve_from_grid_of_false :
    ∀ (fuel : Nat) {g : Grid} {idx : Nat} {r : Rng} {g2 : Grid} {r2 : Rng},
      solve_from fuel g idx r = (false, g2, r2) → g2 = g := by
  intro fuel
  induction fuel with
  | zero =>
    intro g idx r g2 r2 he
    rw [solve_from] at he
    simp only [Prod.mk.injEq] at he
    exact he.2.1.symm
  | succ fuel ih =>
    intro g idx r g2 r2 he
    rw [solve_from] at he
    by_cases h2 : idx = CELL_COUNT
    · rw [if_pos h2] at he
      simp only [Prod.mk.injEq] at he
      exact absurd he.1 (by simp)
    · rw [if_neg h2] at he
      by_cases h3 : gget g idx ≠ 0
      · rw [if_pos h3] at he
        exact ih he
      · rw [if_neg h3] at he
        exact try_digits_grid_of_false (fun hx => ih hx) _ (by omega) he

/-- Soundness of the candidate loop: a successful return produces a
wellformed, consistent and fully filled grid keeping all clues. -/
theorem try_digits_sound {fuel : Nat}
    (hrec : ∀ {g idx r g2 r2}, solve_from fuel g idx r = (true, g2, r2) →
      idx ≤ CELL_COUNT → wellformed g → consistent g → filledBelow g idx →
      wellformed g2 ∧ consistent g2 ∧ (∀ j < CELL_COUNT, gget g2 j ≠ 0) ∧
        extendsClues g g2)
    (hres : ∀ {g idx r g2 r2}, solve_from fuel g idx r = (false, g2, r2) → g2 = g) :
    ∀ (ds : List Nat) {g : Grid} {idx : Nat} {r : Rng} {g2 : Grid} {r2 : Rng},
      try_digits fuel g idx ds r = (true, g2, r2) →
      idx < CELL_COUNT → wellformed g → consistent g → filledBelow g idx →
      gget g idx = 0 → (∀ v ∈ ds, 1 ≤ v ∧ v ≤ 9) →
      wellformed g2 ∧ consistent g2 ∧ (∀ j < CELL_COUNT, gget g2 j ≠ 0) ∧
        extendsClues g g2 := by
  intro ds
  induction ds with
  | nil =>
    intro g idx r g2 r2 he
    rw [try_digits] at he
    simp only [Prod.mk.injEq] at he
    exact absurd he.1 (by simp)
  | cons v rest ih =>
    intro g idx r g2 r2 he hidx hwf hcons hfb h0 hb
    rw [try_digits] at he
    have hvb := hb v (List.mem_cons_self v rest)
    by_cases hcp : can_place g idx v = true
    · rw [if_pos hcp] at he
      rcases hr : solve_from fuel (g.set idx v) (idx + 1) r with ⟨b, g3, r3⟩
      rw [hr] at he
      cases b
      · simp only at he
        have hg3 : g3 = g.set idx v := hres hr
        subst hg3
        rw [set_set_restore h0 v] at he
        exact ih he hidx hwf hcons hfb h0 (fun w hw => hb w (List.mem_cons_of_mem v hw))
      · simp only [Prod.mk.injEq] at he
        obtain ⟨hg2, hr2⟩ := he.2
        subst hg2
        have hlt : idx < g.length := by
          have := hwf.1
          omega
        have := hrec hr (by omega) (wellformed_set hwf hvb.2 idx)
          (consistent_set_of_can_place hcons hidx h0 hvb.1 hcp)
          (filledBelow_set hfb hlt hvb.1)
        exact ⟨this.1, this.2.1, this.2.2.1,
          extendsClues_trans (extendsClues_set h0 v) this.2.2.2⟩
    · rw [if_neg hcp] at he
      exact ih he hidx hwf hcons hfb h0 (fun w hw => hb w (List.mem_cons_of_mem v hw))

/-- Soundness of solve_from. -/
theorem solve_from_sound :
    ∀ (fuel : Nat) {g : Grid} {idx : Nat} {r : Rng} {g2 : Grid} {r2 : Rng},
      solve_from fuel g idx r = (true, g2, r2) →
      idx ≤ CELL_COUNT → wellformed g → consistent g → filledBelow g idx →
      wellformed g2 ∧ consistent g2 ∧ (∀ j < CELL_COUNT, gget g2 j ≠ 0) ∧
        extendsClues g g2 := by
  intro fuel
  induction fuel with
  | zero =>
    intro g idx r g2 r2 he
    rw [solve_from] at he
    simp only [Prod.mk.injEq] at he
    exact absurd he.1 (by simp)
  | succ fuel ih =>
    intro g idx r g2 r2 he hidx hwf hcons hfb
    rw [solve_from] at he
    by_cases h2 : idx = CELL_COUNT
    · rw [if_pos h2] at he
      simp only [Prod.mk.injEq] at he
      obtain ⟨hg2, hr2⟩ := he.2
      subst hg2
      subst h2
      exact ⟨hwf, hcons, fun j hj => hfb j hj, fun i hi hnz => rfl⟩
    · rw [if_neg h2] at he
      by_cases h3 : gget g idx ≠ 0
      · rw [if_pos h3] at he
        exact ih he (by omega) hwf hcons (filledBelow_succ_of_ne hfb h3)
      · rw [if_neg h3] at he
        have hds : ∀ v ∈ (shuffleL [1, 2, 3, 4, 5, 6, 7, 8, 9] r).1, 1 ≤ v ∧ v ≤ 9 := by
          intro v hv
          have := (shuffleL_perm [1, 2, 3, 4, 5, 6, 7, 8, 9] r).mem_iff.mp hv
          exact mem_oneToNine.mp this
        exact try_digits_sound (fun hx => ih hx) (fun hx => solve_from_grid_of_false fuel hx)
          _ he (by omega) hwf hcons hfb (by omega) hds

/-- can_place accepts the digit the completion h puts at idx. -/
theorem can_place_target {g h : Grid} (hv : validPerm h) (hext : extendsClues g h)
    {idx : Nat} (hidx : idx < CELL_COUNT) (h0 : gget g idx = 0) :
    can_place g idx (gget h idx) = true := by
  rw [can_place_iff g hidx]
  intro j hj hs heq
  have hvb := validPerm_cell_bounds hv idx hidx
  have hnzj : gget g j ≠ 0 := by
    rw [heq]
    omega
  have hne : j ≠ idx := by
    intro hje
    rw [hje] at hnzj
    exact hnzj h0
  have hhj : gget h j = gget g j := hext j hj hnzj
  have hcons := validPerm_consistent hv
  have := hcons j hj idx hidx (sharesUnit_symm hs) hne (by rw [hhj]; exact hnzj)
  rw [hhj, heq] at this
  exact this rfl

/-- Completeness of the candidate loop: if the digit the completion
puts at idx is among the candidates, the loop succeeds. -/
theorem try_digits_complete {fuel : Nat} {h : Grid} (hv : validPerm h)
    (hrec : ∀ {g idx r}, CELL_COUNT - idx < fuel → idx ≤ CELL_COUNT →
      g.length = CELL_COUNT → extendsClues g h → (solve_from fuel g idx r).1 = true) :
    ∀ (ds : List Nat) {g : Grid} {idx : Nat} {r : Rng},
      CELL_COUNT - (idx + 1) < fuel → idx < CELL_COUNT → g.length = CELL_COUNT →
      extendsClues g h → gget g idx = 0 → gget h idx ∈ ds →
      (try_digits fuel g idx ds r).1 = true := by
  intro ds
  induction ds with
  | nil =>
    intro g idx r hfu hidx hlen hext h0 hmem
    exact absurd hmem (List.not_mem_nil _)
  | cons v rest ih =>
    intro g idx r hfu hidx hlen hext h0 hmem
    rw [try_digits]
    have hlt : idx < g.length := by omega
    by_cases hcp : can_place g idx v = true
    · rw [if_pos hcp]
      rcases hr : solve_from fuel (g.set idx v) (idx + 1) r with ⟨b, g3, r3⟩
      cases b
      · simp only
        have hg3 : g3 = g.set idx v := solve_from_grid_of_false fuel hr
        subst hg3
        rw [set_set_restore h0 v]
        by_cases hve : v = gget h idx
        · exfalso
          have hext2 : extendsClues (g.set idx v) h := by
            intro i hi hnz
            by_cases hie : i = idx
            · subst hie
              rw [gget_set_self hlt] at hnz ⊢
              exact hve.symm
            · rw [gget_set_ne v (fun hx => hie hx.symm)] at hnz ⊢
              exact hext i hi hnz
          have hcontr : (solve_from fuel (g.set idx v) (idx + 1) r).1 = true :=
            hrec (by omega) (by omega) (by simpa using hlen) hext2
          rw [hr] at hcontr
          simp at hcontr
        · have hmem2 : gget h idx ∈ rest := by
            rcases List.mem_cons.mp hmem with hx | hx
            · exact absurd hx.symm hve
            · exact hx
          exact ih (by omega) hidx hlen hext h0 hmem2
      · rfl
    · rw [if_neg hcp]
      by_cases hve : v = gget h idx
      · exfalso
        apply hcp
        rw [hve]
        exact can_place_target hv hext hidx h0
      · have hmem2 : gget h idx ∈ rest := by
          rcases List.mem_cons.mp hmem with hx | hx
          · exact absurd hx.symm hve
          · exact hx
        exact ih hfu hidx hlen hext h0 hmem2

/-- Completeness of solve_from: whenever a valid completion of the
current grid exists, the search succeeds, whatever the random
choices. -/
theorem solve_from_complete {h : Grid} (hv : validPerm h) :
    ∀ (fuel : Nat) {g : Grid} {idx : Nat} {r : Rng},
      CELL_COUNT - idx < fuel → idx ≤ CELL_COUNT → g.length = CELL_COUNT →
      extendsClues g h → (solve_from fuel g idx r).1 = true := by
  intro fuel
  induction fuel with
  | zero =>
    intro g idx r hfu
    omega
  | succ fuel ih =>
    intro g idx r hfu hidx hlen hext
    rw [solve_from]
    by_cases h2 : idx = CELL_COUNT
    · rw [if_pos h2]
    · rw [if_neg h2]
      have hidx' : idx < CELL_COUNT := by omega
      by_cases h3 : gget g idx ≠ 0
      · rw [if_pos h3]
        exact ih (by omega) (by omega) hlen hext
      · rw [if_neg h3]
        have h0 : gget g idx = 0 := by omega
        have hdm : gget h idx ∈ (shuffleL [1, 2, 3, 4, 5, 6, 7, 8, 9] r).1 := by
          rw [(shuffleL_perm [1, 2, 3, 4, 5, 6, 7, 8, 9] r).mem_iff]
          exact mem_oneToNine.mpr (validPerm_cell_bounds hv idx hidx')
        exact try_digits_complete hv (fun hfu2 hidx2 hlen2 hext2 => ih hfu2 hidx2 hlen2 hext2)
          _ (by omega) hidx' hlen hext h0 hdm

theorem cyclicGrid_valid : validPerm cyclicGrid := by decide

theorem gget_zeros81 (i : Nat) : gget zeros81 i = 0 := by
  rcases Nat.lt_or_ge i 81 with h | h
  · rw [gget_eq_getElem (by simp [zeros81, CELL_COUNT]; omega)]
    simp [zeros81]
  · exact gget_eq_zero_of_le (by simp [zeros81, CELL_COUNT]; omega)

theorem zeros81_wellformed : wellformed zeros81 := by
  refine ⟨by simp [zeros81], ?_⟩
  intro i hi
  rw [gget_zeros81]
  omega

theorem zeros81_consistent : consistent zeros81 := by
  intro i hi j hj hs hne hnz
  exact absurd (gget_zeros81 i) hnz

/-- Every run of new_solved succeeds and returns a valid solved grid
in the puzzle field and the all zero grid in the solution field. -/
theorem new_solved_spec (r : Rng) :
    (solve_from (CELL_COUNT + 1) zeros81 0 r).1 = true ∧
    validPerm (new_solved r).1.puzzle ∧ (new_solved r).1.solution = zeros81 := by
  have hext : extendsClues zeros81 cyclicGrid := by
    intro i hi hnz
    exact absurd (gget_zeros81 i) hnz
  have hcomp : (solve_from (CELL_COUNT + 1) zeros81 0 r).1 = true :=
    solve_from_complete cyclicGrid_valid (CELL_COUNT + 1) (by omega) (by omega)
      (by simp [zeros81]) hext
  rcases he : solve_from (CELL_COUNT + 1) zeros81 0 r with ⟨b, g2, r2⟩
  rw [he] at hcomp
  simp only at hcomp
  subst hcomp
  have hsnd := solve_from_sound (CELL_COUNT + 1) he (by omega) zeros81_wellformed
    zeros81_consistent (filledBelow_zero zeros81)
  have hvp : validPerm g2 := validPerm_of_full hsnd.1 hsnd.2.2.1 hsnd.2.1
  refine ⟨rfl, ?_, ?_⟩
  · rw [new_solved, he]
    exact hvp
  · rw [new_solved, he]

theorem gget_set_zero (g : Grid) (i : Nat) : gget (g.set i 0) i = 0 := by
  rcases Nat.lt_or_ge i g.length with h | h
  · exact gget_set_self h 0
  · rw [List.set_eq_of_length_le h]
    exact gget_eq_zero_of_le h

/-- Writing back the values a grid already holds changes nothing. -/
theorem setIdxList_id : ∀ (vals : List Nat) (g : Grid) (ι : Nat → Nat) (k : Nat),
    (∀ t, t < vals.length → vals.getD t 0 = gget g (ι (k + t))) →
    setIdxList g ι k vals = g := by
  intro vals
  induction vals with
  | nil => intro g ι k hsame; rfl
  | cons v rest ih =>
    intro g ι k hsame
    rw [setIdxList]
    have h0 := hsame 0 (by simp)
    simp only [List.getD_cons_zero, Nat.add_zero] at h0
    rw [h0, set_gget]
    refine ih g ι (k + 1) ?_
    intro t ht
    have := hsame (t + 1) (by simp; omega)
    simp only [List.getD_cons_succ] at this
    rw [this]
    congr 2
    omega

theorem setIdxList_append : ∀ (v1 v2 : List Nat) (g : Grid) (ι : Nat → Nat) (k : Nat),
    setIdxList g ι k (v1 ++ v2) =
      setIdxList (setIdxList g ι k v1) ι (k + v1.length) v2 := by
  intro v1
  induction v1 with
  | nil => intro v2 g ι k; simp [setIdxList]
  | cons v rest ih =>
    intro v2 g ι k
    rw [List.cons_append, setIdxList, setIdxList, ih]
    congr 1
    simp
    omega

/-- Net effect of reading nine cells through an injective index map,
clearing one entry of the copy and writing the copy back: exactly one
cell of the grid is cleared.  Shared core of set_col and set_block as
used by the repair loops. -/
theorem setIdxList_set_clear (ι : Nat → Nat) (g : Grid) (kk : Nat) (hkk : kk < 9)
    (hinj : ∀ a b, a < 9 → b < 9 → ι a = ι b → a = b) :
    setIdxList g ι 0 (((List.range 9).map (fun t => gget g (ι t))).set kk 0) =
      g.set (ι kk) 0 := by
  set vals : List Nat := (List.range 9).map (fun t => gget g (ι t)) with hv
  have hvlen : vals.length = 9 := by simp [hv]
  have hvget : ∀ t, t < 9 → vals.getD t 0 = gget g (ι t) := by
    intro t ht
    rw [List.getD_eq_getElem vals 0 (by omega)]
    simp [hv]
  have hset : vals.set kk 0 = List.take kk vals ++ 0 :: List.drop (kk + 1) vals := by
    rw [List.set_eq_take_append_cons_drop]
    rw [if_pos (by omega)]
  rw [hset, setIdxList_append]
  have htake : setIdxList g ι 0 (List.take kk vals) = g := by
    refine setIdxList_id _ g ι 0 ?_
    intro t ht
    simp only [List.length_take] at ht
    have ht9 : t < kk := by omega
    rw [List.getD_eq_getElem _ 0 (by simp only [List.length_take]; omega)]
    rw [List.getElem_take]
    rw [← List.getD_eq_getElem vals 0 (by omega)]
    rw [hvget t (by omega)]
    simp
  rw [htake]
  have hlt : (List.take kk vals).length = kk := by
    simp only [List.length_take]
    omega
  rw [hlt]
  rw [setIdxList]
  have h09 : (0 : Nat) + kk = kk := by omega
  rw [h09]
  refine setIdxList_id _ _ ι (kk + 1) ?_
  intro t ht
  simp only [List.length_drop] at ht
  rw [List.getD_eq_getElem _ 0 (by simp only [List.length_drop]; omega)]
  rw [List.getElem_drop]
  rw [← List.getD_eq_getElem vals 0 (by omega)]
  rw [hvget (kk + 1 + t) (by omega)]
  have hne : ι kk ≠ ι (kk + 1 + t) := by
    intro he
    have := hinj kk (kk + 1 + t) (by omega) (by omega) he
    omega
  rw [gget_set_ne 0 hne]

theorem set_col_clear (g : Grid) {n rr : Nat} (hn : n < SIDE) (hrr : rr < SIDE) :
    set_col g n ((col g n).set rr 0) = g.set (rr * SIDE + n) 0 := by
  have hrr9 : rr < 9 := by simpa [SIDE] using hrr
  have := setIdxList_set_clear (fun t => t * SIDE + n) g rr hrr9
    (by intro a b ha hb he; simp only [SIDE] at he; omega)
  exact this

theorem set_block_clear (g : Grid) {br bc kk : Nat} (hkk : kk < SIDE) :
    set_block g br bc ((block g br bc).set kk 0) =
      g.set ((br * BLOCK_SIDE + kk / BLOCK_SIDE) * SIDE + (bc * BLOCK_SIDE + kk % BLOCK_SIDE)) 0 := by
  have hkk9 : kk < 9 := by simpa [SIDE] using hkk
  have := setIdxList_set_clear
    (fun t => (br * BLOCK_SIDE + t / BLOCK_SIDE) * SIDE + (bc * BLOCK_SIDE + t % BLOCK_SIDE))
    g kk hkk9
    (by intro a b ha hb he; simp only [SIDE, BLOCK_SIDE] at he; omega)
  exact this

theorem col_contains_zero_iff (g : Grid) (n : Nat) :
    (col g n).contains 0 = true ↔ ∃ ro < SIDE, gget g (ro * SIDE + n) = 0 := by
  rw [col_eq]
  constructor
  · intro h
    have : (0 : Nat) ∈ (List.range 9).map (fun r => gget g (r * 9 + n)) := by
      simpa using h
    rw [List.mem_map] at this
    obtain ⟨ro, hro, he⟩ := this
    rw [List.mem_range] at hro
    exact ⟨ro, by simpa [SIDE] using hro, by simpa [SIDE] using he.symm ▸ he⟩
  · rintro ⟨ro, hro, he⟩
    have : (0 : Nat) ∈ (List.range 9).map (fun r => gget g (r * 9 + n)) := by
      rw [List.mem_map]
      exact ⟨ro, List.mem_range.mpr (by simpa [SIDE] using hro), by simpa [SIDE] using he⟩
    simpa using this

theorem block_contains_zero_iff (g : Grid) (br bc : Nat) :
    (block g br bc).contains 0 = true ↔
      ∃ k < SIDE, gget g ((br * BLOCK_SIDE + k / BLOCK_SIDE) * SIDE +
        (bc * BLOCK_SIDE + k % BLOCK_SIDE)) = 0 := by
  rw [block_eq]
  constructor
  · intro h
    have : (0 : Nat) ∈ (List.range 9).map
        (fun k => gget g ((br * 3 + k / 3) * 9 + (bc * 3 + k % 3))) := by
      simpa using h
    rw [List.mem_map] at this
    obtain ⟨k, hk, he⟩ := this
    rw [List.mem_range] at hk
    refine ⟨k, by simpa [SIDE] using hk, ?_⟩
    simpa [SIDE, BLOCK_SIDE] using he
  · rintro ⟨k, hk, he⟩
    have : (0 : Nat) ∈ (List.range 9).map
        (fun k => gget g ((br * 3 + k / 3) * 9 + (bc * 3 + k % 3))) := by
      rw [List.mem_map]
      refine ⟨k, List.mem_range.mpr (by simpa [SIDE] using hk), ?_⟩
      simpa [SIDE, BLOCK_SIDE] using he
    simpa using this

theorem Masked_refl {G : Grid} (hG : validPerm G) : Masked G G ∅ := by
  refine ⟨hG.1, ?_, ?_, ?_⟩
  · intro i hi
    exact absurd hi (Finset.not_mem_empty i)
  · intro i hi
    exact absurd hi (Finset.not_mem_empty i)
  · intro i hi hni
    rfl

theorem Masked_zero_iff {G g : Grid} {S : Finset Nat} (hG : validPerm G)
    (hm : Masked G g S) {i : Nat} (hi : i < CELL_COUNT) :
    gget g i = 0 ↔ i ∈ S := by
  constructor
  · intro h0
    by_contra hni
    rw [hm.2.2.2 i hi hni] at h0
    exact validPerm_full hG i hi h0
  · exact hm.2.2.1 i

theorem Masked_wellformed {G g : Grid} {S : Finset Nat} (hG : validPerm G)
    (hm : Masked G g S) : wellformed g := by
  refine ⟨hm.1, ?_⟩
  intro i hi
  by_cases hs : i ∈ S
  · rw [hm.2.2.1 i hs]
    omega
  · rw [hm.2.2.2 i hi hs]
    exact (validPerm_cell_bounds hG i hi).2

theorem Masked_consistent {G g : Grid} {S : Finset Nat} (hG : validPerm G)
    (hm : Masked G g S) : consistent g := by
  refine consistent_mono (validPerm_consistent hG) ?_
  intro i hi
  by_cases hs : i ∈ S
  · exact Or.inl (hm.2.2.1 i hs)
  · exact Or.inr (hm.2.2.2 i hi hs)

theorem Masked_extendsClues {G g : Grid} {S : Finset Nat} (hm : Masked G g S) :
    extendsClues g G := by
  intro i hi hnz
  by_cases hs : i ∈ S
  · exact absurd (hm.2.2.1 i hs) hnz
  · exact (hm.2.2.2 i hi hs).symm

theorem Masked_set0 {G g : Grid} {S : Finset Nat} (hm : Masked G g S) {i : Nat}
    (hi : i < CELL_COUNT) : Masked G (g.set i 0) (insert i S) := by
  refine ⟨by rw [length_set_eq]; exact hm.1, ?_, ?_, ?_⟩
  · intro j hj
    rcases Finset.mem_insert.mp hj with he | hs
    · subst he; exact hi
    · exact hm.2.1 j hs
  · intro j hj
    rcases Finset.mem_insert.mp hj with he | hs
    · subst he; exact gget_set_zero g j
    · by_cases hij : i = j
      · subst hij; exact gget_set_zero g i
      · rw [gget_set_ne 0 hij]; exact hm.2.2.1 j hs
  · intro j hj hjn
    have hij : i ≠ j := fun he => hjn (he ▸ Finset.mem_insert_self i S)
    rw [gget_set_ne 0 hij]
    exact hm.2.2.2 j hj (fun hs => hjn (Finset.mem_insert_of_mem hs))

/-- Cellwise effect of the level 0 baseline loop: the cells
(row + k, a[k]) are cleared and nothing else changes. -/
theorem clearRows_gget : ∀ (a : List Nat) (g : Grid) (row i : Nat),
    gget (clearRows g row a) i =
      if ∃ k, k < a.length ∧ i = (row + k) * SIDE + a.getD k 0 then 0
      else gget g i := by
  intro a
  induction a with
  | nil =>
    intro g row i
    rw [clearRows, if_neg]
    rintro ⟨k, hk, _⟩
    simp at hk
  | cons c rest ih =>
    intro g row i
    rw [clearRows, ih]
    by_cases h1 : ∃ k, k < rest.length ∧ i = (row + 1 + k) * SIDE + rest.getD k 0
    · rw [if_pos h1, if_pos]
      obtain ⟨k, hk, he⟩ := h1
      refine ⟨k + 1, by simp only [List.length_cons]; omega, ?_⟩
      rw [List.getD_cons_succ]
      simp only [SIDE] at he ⊢
      omega
    · rw [if_neg h1]
      by_cases h2 : i = row * SIDE + c
      · rw [if_pos ⟨0, by simp, by simpa using h2⟩]
        rw [h2]
        exact gget_set_zero g _
      · rw [if_neg]
        · refine gget_set_ne 0 (fun he => h2 he.symm)
        · rintro ⟨k, hk, he⟩
          match k with
          | 0 =>
            rw [List.getD_cons_zero] at he
            exact h2 (by simp only [SIDE] at he ⊢; omega)
          | k + 1 =>
            rw [List.getD_cons_succ] at he
            exact h1 ⟨k, by simp only [List.length_cons] at hk; omega,
              by simp only [SIDE] at he ⊢; omega⟩

theorem randBelow_lt {n : Nat} (hn : 0 < n) (r : Rng) : (randBelow n r).1 < n := by
  unfold randBelow
  rcases rngNext r with ⟨v, r2⟩
  cases v with
  | num k => exact Nat.mod_lt k hn
  | idxs σ => exact hn

/-- Cellwise effect of the level > 0 baseline loop: there is a column
choice f with one cleared cell (rw, f rw) per visited row. -/
theorem baselineRand_gget : ∀ (rows : List Nat) (g : Grid) (r : Rng),
    rows.Nodup →
    ∃ f : Nat → Nat, (∀ rw, f rw < SIDE) ∧
      ∀ i, gget (baselineRand g rows r).1 i =
        (if ∃ rw ∈ rows, i = rw * SIDE + f rw then 0 else gget g i) := by
  intro rows
  induction rows with
  | nil =>
    intro g r hnd
    refine ⟨fun _ => 0, fun rw => by simp [SIDE], ?_⟩
    intro i
    rw [baselineRand, if_neg]
    rintro ⟨rw, hrw, _⟩
    exact (List.not_mem_nil rw) hrw
  | cons rw rest ih =>
    intro g r hnd
    rw [baselineRand]
    have hc : (randBelow SIDE r).1 < SIDE := randBelow_lt (by simp [SIDE]) r
    obtain ⟨f, hf, hval⟩ := ih (g.set (rw * SIDE + (randBelow SIDE r).1) 0)
      (randBelow SIDE r).2 (List.nodup_cons.mp hnd).2
    refine ⟨fun x => if x = rw then (randBelow SIDE r).1 else f x, ?_, ?_⟩
    · intro x
      show (if x = rw then (randBelow SIDE r).1 else f x) < SIDE
      split
      · exact hc
      · exact hf x
    · intro i
      rw [hval]
      by_cases h1 : ∃ rw2 ∈ rest, i = rw2 * SIDE + f rw2
      · rw [if_pos h1, if_pos]
        obtain ⟨rw2, hrw2, he⟩ := h1
        have hne : rw2 ≠ rw := fun hx => (List.nodup_cons.mp hnd).1 (hx ▸ hrw2)
        refine ⟨rw2, List.mem_cons_of_mem rw hrw2, ?_⟩
        show i = rw2 * SIDE + (if rw2 = rw then (randBelow SIDE r).1 else f rw2)
        rw [if_neg hne]
        exact he
      · rw [if_neg h1]
        by_cases h2 : i = rw * SIDE + (randBelow SIDE r).1
        · rw [if_pos]
          · rw [h2]
            exact gget_set_zero g _
          · refine ⟨rw, List.mem_cons_self rw rest, ?_⟩
            show i = rw * SIDE + (if rw = rw then (randBelow SIDE r).1 else f rw)
            rw [if_pos rfl]
            exact h2
        · rw [if_neg]
          · exact gget_set_ne 0 (fun he => h2 he.symm)
          · rintro ⟨rw2, hrw2, he⟩
            have he2 : i = rw2 * SIDE + (if rw2 = rw then (randBelow SIDE r).1 else f rw2) := he
            rcases List.mem_cons.mp hrw2 with hx | hx
            · subst hx
              rw [if_pos rfl] at he2
              exact h2 he2
            · have hne : rw2 ≠ rw := fun hy => (List.nodup_cons.mp hnd).1 (hy ▸ hx)
              rw [if_neg hne] at he2
              exact h1 ⟨rw2, hx, he2⟩

/-- Specification of the column coverage repair loop: it clears a set
C of cells, at most one per column, only in columns of the visited
list whose nine entry cells were all filled, and afterwards every
visited column holds a zero. -/
theorem colRepair_spec : ∀ (cols : List Nat) (g : Grid) (r : Rng),
    g.length = CELL_COUNT → (∀ x ∈ cols, x < SIDE) → cols.Nodup →
    ∃ C : Finset Nat,
      (∀ i ∈ C, i < CELL_COUNT) ∧
      (∀ i ∈ C, i % SIDE ∈ cols) ∧
      (∀ i ∈ C, ∀ ro, ro < SIDE → gget g (ro * SIDE + i % SIDE) ≠ 0) ∧
      (∀ i ∈ C, ∀ j ∈ C, i % SIDE = j % SIDE → i = j) ∧
      (∀ i, gget (colRepair g cols r).1 i = if i ∈ C then 0 else gget g i) ∧
      (∀ c ∈ cols, ∃ ro, ro < SIDE ∧
        gget (colRepair g cols r).1 (ro * SIDE + c) = 0) := by
  intro cols
  induction cols with
  | nil =>
    intro g r hlen hb hnd
    refine ⟨∅, ?_, ?_, ?_, ?_, ?_, ?_⟩ <;>
      simp [colRepair]
  | cons c rest ih =>
    intro g r hlen hb hnd
    have hc9 : c < SIDE := hb c (List.mem_cons_self c rest)
    rw [colRepair]
    by_cases hcz : (col g c).contains 0 = true
    · rw [if_pos hcz]
      obtain ⟨C, hr1, hr2, hr3, hr4, hr5, hr6⟩ := ih g r hlen
        (fun x hx => hb x (List.mem_cons_of_mem c hx)) (List.nodup_cons.mp hnd).2
      refine ⟨C, hr1, fun i hi => List.mem_cons_of_mem c (hr2 i hi), hr3, hr4, hr5, ?_⟩
      intro c2 hc2
      rcases List.mem_cons.mp hc2 with he | hm
      · subst he
        obtain ⟨ro, hro, hval⟩ := (col_contains_zero_iff g c2).mp hcz
        refine ⟨ro, hro, ?_⟩
        rw [hr5]
        split
        · rfl
        · exact hval
      · exact hr6 c2 hm
    · rw [if_neg hcz]
      have hrr : (randBelow SIDE r).1 < SIDE := randBelow_lt (by simp [SIDE]) r
      rw [set_col_clear g hc9 hrr]
      set p : Nat := (randBelow SIDE r).1 * SIDE + c with hp
      have hplt : p < CELL_COUNT := by
        simp only [hp, SIDE, CELL_COUNT] at *
        omega
      have hpc : p % SIDE = c := by
        simp only [hp, SIDE] at *
        omega
      have hnz : ∀ ro, ro < SIDE → gget g (ro * SIDE + c) ≠ 0 := by
        intro ro hro hzero
        exact hcz ((col_contains_zero_iff g c).mpr ⟨ro, hro, hzero⟩)
      obtain ⟨C, hr1, hr2, hr3, hr4, hr5, hr6⟩ := ih (g.set p 0) (randBelow SIDE r).2
        (by simpa using hlen) (fun x hx => hb x (List.mem_cons_of_mem c hx))
        (List.nodup_cons.mp hnd).2
      have hCnotc : ∀ i ∈ C, i % SIDE ≠ c := by
        intro i hi he
        exact (List.nodup_cons.mp hnd).1 (he ▸ hr2 i hi)
      have hpnotC : p ∉ C := fun hm => hCnotc p hm hpc
      refine ⟨insert p C, ?_, ?_, ?_, ?_, ?_, ?_⟩
      · intro i hi
        rcases Finset.mem_insert.mp hi with he | hm
        · subst he; exact hplt
        · exact hr1 i hm
      · intro i hi
        rcases Finset.mem_insert.mp hi with he | hm
        · subst he
          rw [hpc]
          exact List.mem_cons_self c rest
        · exact List.mem_cons_of_mem c (hr2 i hm)
      · intro i hi ro hro
        rcases Finset.mem_insert.mp hi with he | hm
        · subst he
          rw [hpc]
          exact hnz ro hro
        · have := hr3 i hm ro hro
          have hne : p ≠ ro * SIDE + i % SIDE := by
            intro he
            have : p % SIDE = (ro * SIDE + i % SIDE) % SIDE := by rw [he]
            rw [hpc] at this
            have hmod : (ro * SIDE + i % SIDE) % SIDE = i % SIDE := by
              simp only [SIDE]
              omega
            rw [hmod] at this
            exact hCnotc i hm this.symm
          rw [gget_set_ne 0 hne] at this
          exact this
      · intro i hi j hj hmod
        rcases Finset.mem_insert.mp hi with hei | hmi <;>
          rcases Finset.mem_insert.mp hj with hej | hmj
        · rw [hei, hej]
        · subst hei
          rw [hpc] at hmod
          exact absurd hmod.symm (hCnotc j hmj)
        · subst hej
          rw [hpc] at hmod
          exact absurd hmod (hCnotc i hmi)
        · exact hr4 i hmi j hmj hmod
      · intro i
        rw [hr5]
        by_cases hiC : i ∈ C
        · rw [if_pos hiC, if_pos (Finset.mem_insert_of_mem hiC)]
        · rw [if_neg hiC]
          by_cases hip : i = p
          · rw [hip]
            rw [if_pos (Finset.mem_insert_self p C)]
            exact gget_set_zero g p
          · rw [if_neg (by
              intro hm
              rcases Finset.mem_insert.mp hm with he | hm2
              · exact hip he
              · exact hiC hm2)]
            exact gget_set_ne 0 (fun he => hip he.symm)
      · intro c2 hc2
        rcases List.mem_cons.mp hc2 with he | hm
        · subst he
          refine ⟨(randBelow SIDE r).1, hrr, ?_⟩
          rw [hr5]
          split
          · rfl
          · rw [← hp]
            exact gget_set_zero g p
        · obtain ⟨ro, hro, hval⟩ := hr6 c2 hm
          refine ⟨ro, hro, hval⟩

theorem blockOrigin_of_cell {br bc k : Nat} (hbr : br < BLOCK_SIDE)
    (hbc : bc < BLOCK_SIDE) (hk : k < SIDE) :
    blockOrigin ((br * BLOCK_SIDE + k / BLOCK_SIDE) * SIDE + (bc * BLOCK_SIDE + k % BLOCK_SIDE)) =
      br * (SIDE * BLOCK_SIDE) + bc * BLOCK_SIDE := by
  simp only [blockOrigin, rowOf, colOf, SIDE, BLOCK_SIDE] at *
  omega

theorem cell_of_blockOrigin {br bc : Nat} (hbr : br < BLOCK_SIDE) (hbc : bc < BLOCK_SIDE)
    {j : Nat} (hj : j < CELL_COUNT)
    (ho : blockOrigin j = br * (SIDE * BLOCK_SIDE) + bc * BLOCK_SIDE) :
    ∃ k, k < SIDE ∧
      j = (br * BLOCK_SIDE + k / BLOCK_SIDE) * SIDE + (bc * BLOCK_SIDE + k % BLOCK_SIDE) := by
  simp only [blockOrigin, rowOf, colOf, SIDE, BLOCK_SIDE, CELL_COUNT] at *
  refine ⟨j / 9 % 3 * 3 + j % 9 % 3, by omega, by omega⟩

theorem cell_of_cell_lt {br bc k : Nat} (hbr : br < BLOCK_SIDE) (hbc : bc < BLOCK_SIDE)
    (hk : k < SIDE) :
    (br * BLOCK_SIDE + k / BLOCK_SIDE) * SIDE + (bc * BLOCK_SIDE + k % BLOCK_SIDE) <
      CELL_COUNT := by
  simp only [SIDE, BLOCK_SIDE, CELL_COUNT] at *
  omega

theorem blockOrigin_inj {p q : Nat × Nat} (hp1 : p.1 < BLOCK_SIDE) (hp2 : p.2 < BLOCK_SIDE)
    (hq1 : q.1 < BLOCK_SIDE) (hq2 : q.2 < BLOCK_SIDE)
    (he : p.1 * (SIDE * BLOCK_SIDE) + p.2 * BLOCK_SIDE =
      q.1 * (SIDE * BLOCK_SIDE) + q.2 * BLOCK_SIDE) : p = q := by
  have h1 : p.1 = q.1 ∧ p.2 = q.2 := by
    simp only [SIDE, BLOCK_SIDE] at *
    omega
  exact Prod.ext h1.1 h1.2

/-- Specification of the block coverage repair loop, the analogue of
colRepair_spec: a set D of cleared cells, at most one per block, only
in blocks whose nine entry cells were all filled, and afterwards every
visited block holds a zero. -/
theorem blockRepair_spec : ∀ (blocks : List (Nat × Nat)) (g : Grid) (r : Rng),
    g.length = CELL_COUNT → (∀ p ∈ blocks, p.1 < BLOCK_SIDE ∧ p.2 < BLOCK_SIDE) →
    blocks.Nodup →
    ∃ D : Finset Nat,
      (∀ i ∈ D, i < CELL_COUNT) ∧
      (∀ i ∈ D, ∃ p ∈ blocks,
        blockOrigin i = p.1 * (SIDE * BLOCK_SIDE) + p.2 * BLOCK_SIDE) ∧
      (∀ i ∈ D, ∀ j, j < CELL_COUNT → blockOrigin j = blockOrigin i → gget g j ≠ 0) ∧
      (∀ i ∈ D, ∀ j ∈ D, blockOrigin i = blockOrigin j → i = j) ∧
      (∀ i, gget (blockRepair g blocks r).1 i = if i ∈ D then 0 else gget g i) ∧
      (∀ p ∈ blocks, ∃ j, j < CELL_COUNT ∧
        blockOrigin j = p.1 * (SIDE * BLOCK_SIDE) + p.2 * BLOCK_SIDE ∧
        gget (blockRepair g blocks r).1 j = 0) := by
  intro blocks
  induction blocks with
  | nil =>
    intro g r hlen hb hnd
    refine ⟨∅, ?_, ?_, ?_, ?_, ?_, ?_⟩ <;>
      simp [blockRepair]
  | cons q rest ih =>
    intro g r hlen hb hnd
    have hq := hb q (List.mem_cons_self q rest)
    rw [blockRepair]
    by_cases hbz : (block g q.1 q.2).contains 0 = true
    · rw [if_pos hbz]
      obtain ⟨D, hr1, hr2, hr3, hr4, hr5, hr6⟩ := ih g r hlen
        (fun x hx => hb x (List.mem_cons_of_mem q hx)) (List.nodup_cons.mp hnd).2
      refine ⟨D, hr1, ?_, hr3, hr4, hr5, ?_⟩
      · intro i hi
        obtain ⟨p, hp, he⟩ := hr2 i hi
        exact ⟨p, List.mem_cons_of_mem q hp, he⟩
      · intro p hp
        rcases List.mem_cons.mp hp with he | hm
        · subst he
          obtain ⟨k, hk, hval⟩ := (block_contains_zero_iff g p.1 p.2).mp hbz
          refine ⟨(p.1 * BLOCK_SIDE + k / BLOCK_SIDE) * SIDE +
            (p.2 * BLOCK_SIDE + k % BLOCK_SIDE), cell_of_cell_lt hq.1 hq.2 hk,
            blockOrigin_of_cell hq.1 hq.2 hk, ?_⟩
          rw [hr5]
          split
          · rfl
          · exact hval
        · exact hr6 p hm
    · rw [if_neg hbz]
      have hkk : (randBelow SIDE r).1 < SIDE := randBelow_lt (by simp [SIDE]) r
      rw [set_block_clear g hkk]
      set p0 : Nat := (q.1 * BLOCK_SIDE + (randBelow SIDE r).1 / BLOCK_SIDE) * SIDE +
        (q.2 * BLOCK_SIDE + (randBelow SIDE r).1 % BLOCK_SIDE) with hp0
      have hplt : p0 < CELL_COUNT := cell_of_cell_lt hq.1 hq.2 hkk
      have hpo : blockOrigin p0 = q.1 * (SIDE * BLOCK_SIDE) + q.2 * BLOCK_SIDE :=
        blockOrigin_of_cell hq.1 hq.2 hkk
      have hnz : ∀ j, j < CELL_COUNT →
          blockOrigin j = q.1 * (SIDE * BLOCK_SIDE) + q.2 * BLOCK_SIDE →
          gget g j ≠ 0 := by
        intro j hj ho hzero
        apply hbz
        obtain ⟨k, hk, he⟩ := cell_of_blockOrigin hq.1 hq.2 hj ho
        exact (block_contains_zero_iff g q.1 q.2).mpr ⟨k, hk, by rw [← he]; exact hzero⟩
      obtain ⟨D, hr1, hr2, hr3, hr4, hr5, hr6⟩ := ih (g.set p0 0) (randBelow SIDE r).2
        (by simpa using hlen) (fun x hx => hb x (List.mem_cons_of_mem q hx))
        (List.nodup_cons.mp hnd).2
      have hDnotq : ∀ i ∈ D, blockOrigin i ≠ blockOrigin p0 := by
        intro i hi he
        obtain ⟨p, hp, hpe⟩ := hr2 i hi
        have hpb := hb p (List.mem_cons_of_mem q hp)
        have : p = q := blockOrigin_inj hpb.1 hpb.2 hq.1 hq.2 (by rw [← hpe, he, hpo])
        subst this
        exact (List.nodup_cons.mp hnd).1 hp
      have hpnotD : p0 ∉ D := fun hm => hDnotq p0 hm rfl
      refine ⟨insert p0 D, ?_, ?_, ?_, ?_, ?_, ?_⟩
      · intro i hi
        rcases Finset.mem_insert.mp hi with he | hm
        · subst he; exact hplt
        · exact hr1 i hm
      · intro i hi
        rcases Finset.mem_insert.mp hi with he | hm
        · subst he
          exact ⟨q, List.mem_cons_self q rest, hpo⟩
        · obtain ⟨p, hp, he⟩ := hr2 i hm
          exact ⟨p, List.mem_cons_of_mem q hp, he⟩
      · intro i hi j hj ho
        rcases Finset.mem_insert.mp hi with he | hm
        · subst he
          rw [hpo] at ho
          exact hnz j hj ho
        · have := hr3 i hm j hj ho
          have hne : p0 ≠ j := by
            intro he
            apply hDnotq i hm
            rw [← ho, ← he]
          rw [gget_set_ne 0 hne] at this
          exact this
      · intro i hi j hj ho
        rcases Finset.mem_insert.mp hi with hei | hmi <;>
          rcases Finset.mem_insert.mp hj with hej | hmj
        · rw [hei, hej]
        · subst hei
          exact absurd ho.symm (hDnotq j hmj)
        · subst hej
          exact absurd ho (hDnotq i hmi)
        · exact hr4 i hmi j hmj ho
      · intro i
        rw [hr5]
        by_cases hiD : i ∈ D
        · rw [if_pos hiD, if_pos (Finset.mem_insert_of_mem hiD)]
        · rw [if_neg hiD]
          by_cases hip : i = p0
          · rw [hip]
            rw [if_pos (Finset.mem_insert_self p0 D)]
            exact gget_set_zero g p0
          · rw [if_neg (by
              intro hm
              rcases Finset.mem_insert.mp hm with he | hm2
              · exact hip he
              · exact hiD hm2)]
            exact gget_set_ne 0 (fun he => hip he.symm)
      · intro p hp
        rcases List.mem_cons.mp hp with he | hm
        · subst he
          refine ⟨p0, hplt, hpo, ?_⟩
          rw [hr5]
          split
          · rfl
          · exact gget_set_zero g p0
        · exact hr6 p hm

theorem getD_map_range {f : Nat → Nat} {n t : Nat} (ht : t < n) :
    ((List.range n).map f).getD t 0 = f t := by
  rw [List.getD_eq_getElem _ 0 (by simpa using ht)]
  simp

theorem count_eq_of_getD_eq : ∀ (l1 l2 : List Nat), l1.length = l2.length →
    (∀ t, t < l1.length → l1.getD t 0 = l2.getD t 0) →
    ∀ v, l1.count v = l2.count v := by
  intro l1
  induction l1 with
  | nil =>
    intro l2 hlen hag v
    have : l2 = [] := List.length_eq_zero.mp (by simp at hlen; omega)
    rw [this]
  | cons a t1 ih =>
    intro l2 hlen hag v
    match l2 with
    | [] => simp at hlen
    | b :: t2 =>
      have hab : a = b := by
        have := hag 0 (by simp)
        simpa using this
      subst hab
      simp only [List.count_cons]
      have : t1.count v = t2.count v := by
        refine ih t2 (by simpa using hlen) ?_ v
        intro t ht
        have := hag (t + 1) (by simp; omega)
        simpa [List.getD_cons_succ] using this
      omega

theorem count_congr_except : ∀ (l1 l2 : List Nat) (k : Nat), l1.length = l2.length →
    k < l1.length →
    (∀ t, t < l1.length → t ≠ k → l1.getD t 0 = l2.getD t 0) →
    ∀ v, l1.count v + (if l2.getD k 0 = v then 1 else 0) =
      l2.count v + (if l1.getD k 0 = v then 1 else 0) := by
  intro l1
  induction l1 with
  | nil =>
    intro l2 k hlen hk
    simp at hk
  | cons a t1 ih =>
    intro l2 k hlen hk hag v
    match l2 with
    | [] => simp at hlen
    | b :: t2 =>
      match k with
      | 0 =>
        simp only [List.getD_cons_zero, List.count_cons, beq_iff_eq]
        have htl : t1.count v = t2.count v := by
          refine count_eq_of_getD_eq t1 t2 (by simpa using hlen) ?_ v
          intro t ht
          have := hag (t + 1) (by simp; omega) (by omega)
          simpa [List.getD_cons_succ] using this
        omega
      | k + 1 =>
        have hab : a = b := by
          have := hag 0 (by simp) (by omega)
          simpa using this
        subst hab
        simp only [List.getD_cons_succ, List.count_cons, beq_iff_eq]
        have := ih t2 k (by simpa using hlen) (by simp at hk; omega)
          (fun t ht htk => by
            have := hag (t + 1) (by simp; omega) (by omega)
            simpa [List.getD_cons_succ] using this) v
        omega

theorem count_oneToNine {v : Nat} (h1 : 1 ≤ v) (h9 : v ≤ 9) :
    oneToNine.count v = 1 := by
  interval_cases v <;> decide

/-- In a unit shared by two fully valid grids, a single difference is
impossible: a second cell of the same row must differ too. -/
theorem diff_pair_row {h G : Grid} (hvh : validPerm h) (hvG : validPerm G)
    {u : Nat} (hu : u < CELL_COUNT) (hne : gget h u ≠ gget G u) :
    ∃ u2, u2 < CELL_COUNT ∧ u2 ≠ u ∧ rowOf u2 = rowOf u ∧
      gget h u2 ≠ gget G u2 := by
  by_contra hcon
  push_neg at hcon
  have hu81 : u < 81 := by simpa [CELL_COUNT] using hu
  have hr9 : rowOf u < 9 := by simp only [rowOf, SIDE]; omega
  have hag : ∀ t, t < (rowList h (rowOf u)).length → t ≠ u % 9 →
      (rowList h (rowOf u)).getD t 0 = (rowList G (rowOf u)).getD t 0 := by
    intro t ht htk
    rw [rowList_eq] at ht
    simp only [List.length_map, List.length_range] at ht
    rw [rowList_eq, rowList_eq, getD_map_range ht, getD_map_range ht]
    have hu2lt : rowOf u * 9 + t < CELL_COUNT := by
      simp only [rowOf, SIDE, CELL_COUNT]
      omega
    have hu2ne : rowOf u * 9 + t ≠ u := by
      simp only [rowOf, SIDE]
      omega
    have hrow2 : rowOf (rowOf u * 9 + t) = rowOf u := by
      simp only [rowOf, SIDE]
      omega
    exact hcon (rowOf u * 9 + t) hu2lt hu2ne hrow2
  have hkey := count_congr_except (rowList h (rowOf u)) (rowList G (rowOf u)) (u % 9)
    (by rw [rowList_eq, rowList_eq]; simp)
    (by rw [rowList_eq]; simp only [List.length_map, List.length_range]; omega)
    hag (gget G u)
  have hgd1 : (rowList G (rowOf u)).getD (u % 9) 0 = gget G u := by
    rw [rowList_eq, getD_map_range (by omega)]
    congr 1
    simp only [rowOf, SIDE]
    omega
  have hgd2 : (rowList h (rowOf u)).getD (u % 9) 0 = gget h u := by
    rw [rowList_eq, getD_map_range (by omega)]
    congr 1
    simp only [rowOf, SIDE]
    omega
  have hb := validPerm_cell_bounds hvG u hu
  have hc1 : (rowList G (rowOf u)).count (gget G u) = 1 := by
    rw [(hvG.2.1 (rowOf u) (by simpa [SIDE] using hr9)).count_eq]
    exact count_oneToNine hb.1 hb.2
  have hc2 : (rowList h (rowOf u)).count (gget G u) = 1 := by
    rw [(hvh.2.1 (rowOf u) (by simpa [SIDE] using hr9)).count_eq]
    exact count_oneToNine hb.1 hb.2
  rw [hgd1, hgd2, hc1, hc2, if_pos rfl, if_neg hne] at hkey
  omega

/-- Column version of diff_pair_row. -/
theorem diff_pair_col {h G : Grid} (hvh : validPerm h) (hvG : validPerm G)
    {u : Nat} (hu : u < CELL_COUNT) (hne : gget h u ≠ gget G u) :
    ∃ u2, u2 < CELL_COUNT ∧ u2 ≠ u ∧ colOf u2 = colOf u ∧
      gget h u2 ≠ gget G u2 := by
  by_contra hcon
  push_neg at hcon
  have hu81 : u < 81 := by simpa [CELL_COUNT] using hu
  have hc9 : colOf u < 9 := by simp only [colOf, SIDE]; omega
  have hag : ∀ t, t < (col h (colOf u)).length → t ≠ u / 9 →
      (col h (colOf u)).getD t 0 = (col G (colOf u)).getD t 0 := by
    intro t ht htk
    rw [col_eq] at ht
    simp only [List.length_map, List.length_range] at ht
    rw [col_eq, col_eq, getD_map_range ht, getD_map_range ht]
    have hu2lt : t * 9 + colOf u < CELL_COUNT := by
      simp only [colOf, SIDE, CELL_COUNT]
      omega
    have hu2ne : t * 9 + colOf u ≠ u := by
      simp only [colOf, SIDE]
      omega
    have hcol2 : colOf (t * 9 + colOf u) = colOf u := by
      simp only [colOf, SIDE]
      omega
    exact hcon (t * 9 + colOf u) hu2lt hu2ne hcol2
  have hkey := count_congr_except (col h (colOf u)) (col G (colOf u)) (u / 9)
    (by rw [col_eq, col_eq]; simp)
    (by rw [col_eq]; simp only [List.length_map, List.length_range]; omega)
    hag (gget G u)
  have hgd1 : (col G (colOf u)).getD (u / 9) 0 = gget G u := by
    rw [col_eq, getD_map_range (by omega)]
    congr 1
    simp only [colOf, SIDE]
    omega
  have hgd2 : (col h (colOf u)).getD (u / 9) 0 = gget h u := by
    rw [col_eq, getD_map_range (by omega)]
    congr 1
    simp only [colOf, SIDE]
    omega
  have hb := validPerm_cell_bounds hvG u hu
  have hc1 : (col G (colOf u)).count (gget G u) = 1 := by
    rw [(hvG.2.2.1 (colOf u) (by simpa [SIDE] using hc9)).count_eq]
    exact count_oneToNine hb.1 hb.2
  have hc2 : (col h (colOf u)).count (gget G u) = 1 := by
    rw [(hvh.2.2.1 (colOf u) (by simpa [SIDE] using hc9)).count_eq]
    exact count_oneToNine hb.1 hb.2
  rw [hgd1, hgd2, hc1, hc2, if_pos rfl, if_neg hne] at hkey
  omega

/-- Block version of diff_pair_row. -/
theorem diff_pair_block {h G : Grid} (hvh : validPerm h) (hvG : validPerm G)
    {u : Nat} (hu : u < CELL_COUNT) (hne : gget h u ≠ gget G u) :
    ∃ u2, u2 < CELL_COUNT ∧ u2 ≠ u ∧ blockOrigin u2 = blockOrigin u ∧
      gget h u2 ≠ gget G u2 := by
  by_contra hcon
  push_neg at hcon
  have hu81 : u < 81 := by simpa [CELL_COUNT] using hu
  have hbr : u / 9 / 3 < BLOCK_SIDE := by simp only [BLOCK_SIDE]; omega
  have hbc : u % 9 / 3 < BLOCK_SIDE := by simp only [BLOCK_SIDE]; omega
  set ku : Nat := u / 9 % 3 * 3 + u % 9 % 3 with hku
  have hku9 : ku < 9 := by simp only [hku]; omega
  have hcellu : (u / 9 / 3 * 3 + ku / 3) * 9 + (u % 9 / 3 * 3 + ku % 3) = u := by
    simp only [hku]
    omega
  have hag : ∀ t, t < (block h (u / 9 / 3) (u % 9 / 3)).length → t ≠ ku →
      (block h (u / 9 / 3) (u % 9 / 3)).getD t 0 =
        (block G (u / 9 / 3) (u % 9 / 3)).getD t 0 := by
    intro t ht htk
    rw [block_eq] at ht
    simp only [List.length_map, List.length_range] at ht
    rw [block_eq, block_eq, getD_map_range ht, getD_map_range ht]
    set u2 : Nat := (u / 9 / 3 * 3 + t / 3) * 9 + (u % 9 / 3 * 3 + t % 3) with hu2
    have hu2lt : u2 < CELL_COUNT := by
      simp only [hu2, CELL_COUNT]
      omega
    have hu2ne : u2 ≠ u := by
      simp only [hu2, hku] at *
      omega
    have hbo2 : blockOrigin u2 = blockOrigin u := by
      simp only [hu2, blockOrigin, rowOf, colOf, SIDE, BLOCK_SIDE]
      omega
    exact hcon u2 hu2lt hu2ne hbo2
  have hkey := count_congr_except (block h (u / 9 / 3) (u % 9 / 3))
    (block G (u / 9 / 3) (u % 9 / 3)) ku
    (by rw [block_eq, block_eq]; simp)
    (by rw [block_eq]; simp only [List.length_map, List.length_range]; omega)
    hag (gget G u)
  have hgd1 : (block G (u / 9 / 3) (u % 9 / 3)).getD ku 0 = gget G u := by
    rw [block_eq, getD_map_range (by omega)]
    rw [hcellu]
  have hgd2 : (block h (u / 9 / 3) (u % 9 / 3)).getD ku 0 = gget h u := by
    rw [block_eq, getD_map_range (by omega)]
    rw [hcellu]
  have hb := validPerm_cell_bounds hvG u hu
  have hc1 : (block G (u / 9 / 3) (u % 9 / 3)).count (gget G u) = 1 := by
    rw [(hvG.2.2.2 (u / 9 / 3) hbr (u % 9 / 3) hbc).count_eq]
    exact count_oneToNine hb.1 hb.2
  have hc2 : (block h (u / 9 / 3) (u % 9 / 3)).count (gget G u) = 1 := by
    rw [(hvh.2.2.2 (u / 9 / 3) hbr (u % 9 / 3) hbc).count_eq]
    exact count_oneToNine hb.1 hb.2
  rw [hgd1, hgd2, hc1, hc2, if_pos rfl, if_neg hne] at hkey
  omega

/-- The structural core of the uniqueness invariant: a grid obtained
from the solved grid G by clearing a baseline set B with at most one
cell per row, a column repair set C whose columns meet neither B nor
each other, and a block repair set D whose blocks meet neither B, C
nor each other, admits no valid completion other than G itself.
The reason: the cells where another completion h differs from G would
all be cleared, but every row, column or block meeting that difference
set contains at least two of its cells, which contradicts the
one-per-unit structure of B, C and D in turn. -/
theorem masked_unique {G P : Grid} (hG : validPerm G) {B C D : Finset Nat}
    (hmask : Masked G P (B ∪ C ∪ D))
    (hB : ∀ i ∈ B, ∀ j ∈ B, rowOf i = rowOf j → i = j)
    (hCB : ∀ i ∈ C, ∀ j ∈ B, colOf j ≠ colOf i)
    (hCC : ∀ i ∈ C, ∀ j ∈ C, colOf i = colOf j → i = j)
    (hDBC : ∀ i ∈ D, ∀ j ∈ B ∪ C, blockOrigin j ≠ blockOrigin i)
    (hDD : ∀ i ∈ D, ∀ j ∈ D, blockOrigin i = blockOrigin j → i = j)
    {h : Grid} (hvh : validPerm h) (hext : extendsClues P h) :
    ∀ i, i < CELL_COUNT → gget h i = gget G i := by
  have hmem : ∀ u, u < CELL_COUNT → gget h u ≠ gget G u → u ∈ B ∪ C ∪ D := by
    intro u hu hne
    by_contra hns
    have hPu : gget P u = gget G u := hmask.2.2.2 u hu hns
    have hPnz : gget P u ≠ 0 := by
      rw [hPu]
      exact validPerm_full hG u hu
    have := hext u hu hPnz
    rw [hPu] at this
    exact hne this
  have hnotD : ∀ u, u < CELL_COUNT → gget h u ≠ gget G u → u ∉ D := by
    intro u hu hne huD
    obtain ⟨u2, hu2, hne2, hbo, hdiff⟩ := diff_pair_block hvh hG hu hne
    have hu2m := hmem u2 hu2 hdiff
    rcases Finset.mem_union.mp hu2m with hBC | hD2
    · exact hDBC u huD u2 hBC hbo
    · exact hne2 ((hDD u2 hD2 u huD hbo).symm ▸ hDD u2 hD2 u huD hbo)
  have hnotC : ∀ u, u < CELL_COUNT → gget h u ≠ gget G u → u ∉ C := by
    intro u hu hne huC
    obtain ⟨u2, hu2, hne2, hco, hdiff⟩ := diff_pair_col hvh hG hu hne
    have hu2m := hmem u2 hu2 hdiff
    rcases Finset.mem_union.mp hu2m with hBC | hD2
    · rcases Finset.mem_union.mp hBC with hB2 | hC2
      · exact hCB u huC u2 hB2 hco
      · exact hne2 (hCC u2 hC2 u huC hco)
    · exact hnotD u2 hu2 hdiff hD2
  have hnotB : ∀ u, u < CELL_COUNT → gget h u ≠ gget G u → u ∉ B := by
    intro u hu hne huB
    obtain ⟨u2, hu2, hne2, hro, hdiff⟩ := diff_pair_row hvh hG hu hne
    have hu2m := hmem u2 hu2 hdiff
    rcases Finset.mem_union.mp hu2m with hBC | hD2
    · rcases Finset.mem_union.mp hBC with hB2 | hC2
      · exact hne2 (hB u2 hB2 u huB hro)
      · exact hnotC u2 hu2 hdiff hC2
    · exact hnotD u2 hu2 hdiff hD2
  intro i hi
  by_contra hne
  have him := hmem i hi hne
  rcases Finset.mem_union.mp him with hBC | hD2
  · rcases Finset.mem_union.mp hBC with hB2 | hC2
    · exact hnotB i hi hne hB2
    · exact hnotC i hi hne hC2
  · exact hnotD i hi hne hD2

theorem length_eq_one_of_all_eq {l : List Grid} {a : Grid} (hnd : l.Nodup)
    (ha : a ∈ l) (hall : ∀ x ∈ l, x = a) : l.length = 1 := by
  match l with
  | [] => exact absurd ha (List.not_mem_nil a)
  | x :: t =>
    have hxa : x = a := hall x (List.mem_cons_self x t)
    have ht : t = [] := by
      rw [List.eq_nil_iff_forall_not_mem]
      intro y hy
      have hya : y = a := hall y (List.mem_cons_of_mem x hy)
      rw [hya, ← hxa] at hy
      exact (List.nodup_cons.mp hnd).1 hy
    rw [ht]
    rfl

/-- The bounded counter against the exact completion count, at the
public entry point. -/
theorem count_solutions_eq_min {g : Grid} (hwf : wellformed g) (hcons : consistent g)
    (limit : Nat) : count_solutions g limit = min limit (numSolutions g) := by
  unfold count_solutions numSolutions solutionsList
  exact count_eq_min (CELL_COUNT + 1) (by omega) (by omega) hwf hcons
    (filledBelow_zero g)

/-- A masked grid with the one-per-unit B, C, D structure has exactly
one valid completion. -/
theorem numSolutions_eq_one_of_masked {G P : Grid} (hG : validPerm G)
    {B C D : Finset Nat} (hmask : Masked G P (B ∪ C ∪ D))
    (hB : ∀ i ∈ B, ∀ j ∈ B, rowOf i = rowOf j → i = j)
    (hCB : ∀ i ∈ C, ∀ j ∈ B, colOf j ≠ colOf i)
    (hCC : ∀ i ∈ C, ∀ j ∈ C, colOf i = colOf j → i = j)
    (hDBC : ∀ i ∈ D, ∀ j ∈ B ∪ C, blockOrigin j ≠ blockOrigin i)
    (hDD : ∀ i ∈ D, ∀ j ∈ D, blockOrigin i = blockOrigin j → i = j) :
    numSolutions P = 1 := by
  have hlen : P.length = CELL_COUNT := hmask.1
  have hmemiff : ∀ h, h ∈ solutionsList P ↔ extendsClues P h ∧ validPerm h := by
    intro h
    exact mem_expandFrom (CELL_COUNT + 1) (by omega) (by omega) hlen
      (filledBelow_zero P)
  have hGmem : G ∈ solutionsList P :=
    (hmemiff G).mpr ⟨Masked_extendsClues hmask, hG⟩
  have hall : ∀ h ∈ solutionsList P, h = G := by
    intro h hm
    obtain ⟨hext, hvh⟩ := (hmemiff h).mp hm
    exact grid_eq_of_gget hvh.1 hG.1
      (masked_unique hG hmask hB hCB hCC hDBC hDD hvh hext)
  have hnd : (solutionsList P).Nodup :=
    expandFrom_nodup (CELL_COUNT + 1) (by omega) (by omega) hlen (filledBelow_zero P)
  exact length_eq_one_of_all_eq hnd hGmem hall

theorem set_zero_set_restore (g : Grid) (i : Nat) :
    (g.set i 0).set i (gget g i) = g := by
  rw [List.set_set, set_gget]

theorem numSolutions_one_of_unique {g : Grid} (hwf : wellformed g)
    (hcons : consistent g) (hu : has_unique_solution g = true) :
    numSolutions g = 1 := by
  unfold has_unique_solution at hu
  have h2 : count_solutions g 2 = 1 := beq_iff_eq.mp hu
  have := count_solutions_eq_min hwf hcons 2
  omega

/-- Position of a nonzero cell is inside the board. -/
theorem pos_lt_of_nonzero {g : Grid} (hlen : g.length = CELL_COUNT) {pos : Nat}
    (hnz : gget g pos ≠ 0) : pos < CELL_COUNT := by
  by_contra hge
  exact hnz (gget_eq_zero_of_le (by omega))

/-- The extra removal loop keeps the grid a mask of the solved grid
and keeps the completion count at one: a removal is kept only after
the uniqueness check passes, and otherwise the digit is restored,
leaving the grid exactly as before the iteration. -/
theorem extraRemoval_preserves {G : Grid} (hG : validPerm G) :
    ∀ (ps : List Nat) (g : Grid) (more : Nat) (S : Finset Nat),
      Masked G g S → numSolutions g = 1 →
      ∃ S2 : Finset Nat, S ⊆ S2 ∧ Masked G (extraRemoval g more ps).1 S2 ∧
        numSolutions (extraRemoval g more ps).1 = 1 := by
  intro ps
  induction ps with
  | nil =>
    intro g more S hm h1
    rw [extraRemoval]
    exact ⟨S, Finset.Subset.refl S, hm, h1⟩
  | cons pos rest ih =>
    intro g more S hm h1
    rw [extraRemoval]
    by_cases hmz : more = 0
    · rw [if_pos hmz]
      exact ⟨S, Finset.Subset.refl S, hm, h1⟩
    · rw [if_neg hmz]
      by_cases hnz : gget g pos ≠ 0
      · have hpos : pos < CELL_COUNT := pos_lt_of_nonzero hm.1 hnz
        by_cases hu : has_unique_solution (g.set pos 0) = true
        · have hstep : extraStep g more pos = (g.set pos 0, more - 1) := by
            unfold extraStep
            rw [if_neg hmz, if_pos hnz, if_pos hu]
          rw [hstep]
          have hm2 : Masked G (g.set pos 0) (insert pos S) := Masked_set0 hm hpos
          have hn2 : numSolutions (g.set pos 0) = 1 :=
            numSolutions_one_of_unique (Masked_wellformed hG hm2)
              (Masked_consistent hG hm2) hu
          obtain ⟨S2, hsub, hmk, h12⟩ := ih (g.set pos 0) (more - 1) (insert pos S) hm2 hn2
          exact ⟨S2, (Finset.subset_insert pos S).trans hsub, hmk, h12⟩
        · have hstep : extraStep g more pos = (g, more) := by
            unfold extraStep
            rw [if_neg hmz, if_pos hnz, if_neg hu, set_zero_set_restore]
          rw [hstep]
          exact ih g more S hm h1
      · have hstep : extraStep g more pos = (g, more) := by
          unfold extraStep
          rw [if_neg hmz, if_neg hnz]
        rw [hstep]
        exact ih g more S hm h1

theorem zcount_set_zero {g : Grid} (hlen : g.length = CELL_COUNT) {pos : Nat}
    (hnz : gget g pos ≠ 0) : zcount (g.set pos 0) = zcount g + 1 := by
  have hpos : pos < CELL_COUNT := pos_lt_of_nonzero hlen hnz
  have hset : zeroSet (g.set pos 0) = insert pos (zeroSet g) := by
    ext i
    simp only [zeroSet, Finset.mem_filter, Finset.mem_insert, Finset.mem_range]
    constructor
    · rintro ⟨hi, hz⟩
      by_cases hip : i = pos
      · exact Or.inl hip
      · rw [gget_set_ne 0 (fun he => hip he.symm)] at hz
        exact Or.inr ⟨hi, hz⟩
    · rintro (hip | ⟨hi, hz⟩)
      · subst hip
        exact ⟨by simpa [CELL_COUNT] using hpos, gget_set_zero g i⟩
      · refine ⟨hi, ?_⟩
        by_cases hip : i = pos
        · subst hip; exact gget_set_zero g i
        · rw [gget_set_ne 0 (fun he => hip he.symm)]; exact hz
  have hnm : pos ∉ zeroSet g := by
    simp only [zeroSet, Finset.mem_filter, Finset.mem_range]
    rintro ⟨_, hz⟩
    exact hnz hz
  unfold zcount
  rw [hset, Finset.card_insert_of_not_mem hnm]

/-- Budget accounting of the extra removal loop: each kept removal
clears exactly one cell and spends one unit of budget, so the number
of zeros grows by at most the budget. -/
theorem extraRemoval_zcount : ∀ (ps : List Nat) (g : Grid) (more : Nat),
    g.length = CELL_COUNT →
    zcount (extraRemoval g more ps).1 ≤ zcount g + more := by
  intro ps
  induction ps with
  | nil =>
    intro g more hlen
    rw [extraRemoval]
    show zcount g ≤ zcount g + more
    omega
  | cons pos rest ih =>
    intro g more hlen
    rw [extraRemoval]
    by_cases hmz : more = 0
    · rw [if_pos hmz]
      show zcount g ≤ zcount g + more
      omega
    · rw [if_neg hmz]
      by_cases hnz : gget g pos ≠ 0
      · by_cases hu : has_unique_solution (g.set pos 0) = true
        · have hstep : extraStep g more pos = (g.set pos 0, more - 1) := by
            unfold extraStep
            rw [if_neg hmz, if_pos hnz, if_pos hu]
          rw [hstep]
          show zcount (extraRemoval (g.set pos 0) (more - 1) rest).1 ≤ zcount g + more
          have := ih (g.set pos 0) (more - 1) (by simpa using hlen)
          rw [zcount_set_zero hlen hnz] at this
          omega
        · have hstep : extraStep g more pos = (g, more) := by
            unfold extraStep
            rw [if_neg hmz, if_pos hnz, if_neg hu, set_zero_set_restore]
          rw [hstep]
          exact ih g more hlen
      · have hstep : extraStep g more pos = (g, more) := by
          unfold extraStep
          rw [if_neg hmz, if_neg hnz]
        rw [hstep]
        exact ih g more hlen

theorem clearRows_length : ∀ (a : List Nat) (g : Grid) (row : Nat),
    (clearRows g row a).length = g.length := by
  intro a
  induction a with
  | nil => intro g row; rfl
  | cons c rest ih =>
    intro g row
    rw [clearRows, ih]
    simp

theorem shuffleL_length (l : List Nat) (r : Rng) : (shuffleL l r).1.length = l.length :=
  (shuffleL_perm l r).length_eq

theorem perm_getD_lt {a : List Nat} {n : Nat} (hp : List.Perm a (List.range n))
    (hn : 0 < n) (k : Nat) : a.getD k 0 < n := by
  rcases Nat.lt_or_ge k a.length with hk | hk
  · have : a.getD k 0 ∈ a := by
      rw [List.getD_eq_getElem a 0 hk]
      exact List.getElem_mem hk
    have := hp.mem_iff.mp this
    exact List.mem_range.mp this
  · have hz : gget a k = 0 := gget_eq_zero_of_le hk
    show gget a k < n
    rw [hz]
    exact hn

/-- After the baseline phase the grid is the solved grid with exactly
the cells (rw, f rw) cleared, one column choice per row; at level 0
the choice function is the shuffled permutation itself. -/
theorem afterBaseline_spec (level : Nat) (r : Rng) :
    ∃ f : Nat → Nat, (∀ rw, f rw < SIDE) ∧
      (level = 0 →
        f = fun rw => (shuffleL (List.range SIDE) (new_solved r).2).1.getD rw 0) ∧
      Masked (new_solved r).1.puzzle (afterBaseline level r).1
        ((Finset.range SIDE).image (fun rw => rw * SIDE + f rw)) := by
  have hG := (new_solved_spec r).2.1
  have hGlen : (new_solved r).1.puzzle.length = CELL_COUNT := hG.1
  by_cases hl : level = 0
  · subst hl
    set a : List Nat := (shuffleL (List.range SIDE) (new_solved r).2).1 with ha
    have hap : List.Perm a (List.range 9) := by
      rw [ha]
      have := shuffleL_perm (List.range SIDE) (new_solved r).2
      simpa [SIDE] using this
    have halen : a.length = 9 := by
      rw [hap.length_eq]
      simp
    refine ⟨fun rw => a.getD rw 0, ?_, fun _ => rfl, ?_⟩
    · intro rw
      have := perm_getD_lt hap (by omega) rw
      simpa [SIDE] using this
    · have hres : (afterBaseline 0 r).1 = clearRows (new_solved r).1.puzzle 0 a := by
        rw [afterBaseline, baselinePhase, if_pos rfl]
      rw [hres]
      refine ⟨by rw [clearRows_length]; exact hGlen, ?_, ?_, ?_⟩
      · intro i hi
        rw [Finset.mem_image] at hi
        obtain ⟨rw, hrw, he⟩ := hi
        rw [Finset.mem_range] at hrw
        simp only [SIDE] at hrw
        have he2 : rw * SIDE + a.getD rw 0 = i := he
        have h3 := perm_getD_lt hap (by omega) rw
        simp only [SIDE] at he2
        simp only [CELL_COUNT]
        omega
      · intro i hi
        rw [Finset.mem_image] at hi
        obtain ⟨rw, hrw, he⟩ := hi
        rw [Finset.mem_range] at hrw
        simp only [SIDE] at hrw
        have he2 : rw * SIDE + a.getD rw 0 = i := he
        rw [clearRows_gget, if_pos]
        refine ⟨rw, by omega, ?_⟩
        simp only [SIDE] at he2 ⊢
        omega
      · intro i hi hni
        rw [clearRows_gget, if_neg]
        rintro ⟨k, hk, he⟩
        apply hni
        rw [Finset.mem_image]
        refine ⟨k, Finset.mem_range.mpr (by simp only [SIDE]; omega), ?_⟩
        show k * SIDE + a.getD k 0 = i
        simp only [SIDE] at he ⊢
        omega
  · obtain ⟨f, hf, hval⟩ := baselineRand_gget (List.range SIDE)
      (new_solved r).1.puzzle (new_solved r).2 (List.nodup_range 9)
    refine ⟨f, hf, fun he => absurd he hl, ?_⟩
    have hres : (afterBaseline level r).1 =
        (baselineRand (new_solved r).1.puzzle (List.range SIDE) (new_solved r).2).1 := by
      rw [afterBaseline, baselinePhase, if_neg hl]
    rw [hres]
    have hlen2 : (baselineRand (new_solved r).1.puzzle (List.range SIDE)
        (new_solved r).2).1.length = CELL_COUNT := by
      have : ∀ (rows : List Nat) (g : Grid) (rr : Rng),
          (baselineRand g rows rr).1.length = g.length := by
        intro rows
        induction rows with
        | nil => intro g rr; rfl
        | cons x rest ih =>
          intro g rr
          rw [baselineRand, ih]
          simp
      rw [this]
      exact hGlen
    refine ⟨hlen2, ?_, ?_, ?_⟩
    · intro i hi
      rw [Finset.mem_image] at hi
      obtain ⟨rw, hrw, he⟩ := hi
      rw [Finset.mem_range] at hrw
      simp only [SIDE] at hrw
      have he2 : rw * SIDE + f rw = i := he
      have h3 : f rw < 9 := by simpa [SIDE] using hf rw
      simp only [SIDE] at he2
      simp only [CELL_COUNT]
      omega
    · intro i hi
      rw [Finset.mem_image] at hi
      obtain ⟨rw, hrw, he⟩ := hi
      rw [Finset.mem_range] at hrw
      simp only [SIDE] at hrw
      rw [hval, if_pos]
      exact ⟨rw, List.mem_range.mpr (by simpa [SIDE] using hrw), he.symm⟩
    · intro i hi hni
      rw [hval, if_neg]
      rintro ⟨rw, hrw, he⟩
      apply hni
      rw [Finset.mem_image]
      rw [List.mem_range] at hrw
      exact ⟨rw, Finset.mem_range.mpr (by simpa [SIDE] using hrw), he.symm⟩

theorem setIdxList_length : ∀ (vals : List Nat) (g : Grid) (ι : Nat → Nat) (k : Nat),
    (setIdxList g ι k vals).length = g.length := by
  intro vals
  induction vals with
  | nil => intro g ι k; rfl
  | cons v rest ih =>
    intro g ι k
    rw [setIdxList, ih]
    simp

theorem colRepair_length : ∀ (cols : List Nat) (g : Grid) (r : Rng),
    (colRepair g cols r).1.length = g.length := by
  intro cols
  induction cols with
  | nil => intro g r; rfl
  | cons c rest ih =>
    intro g r
    rw [colRepair]
    split
    · exact ih g r
    · rw [ih]
      unfold set_col
      rw [setIdxList_length]

theorem blockRepair_length : ∀ (blocks : List (Nat × Nat)) (g : Grid) (r : Rng),
    (blockRepair g blocks r).1.length = g.length := by
  intro blocks
  induction blocks with
  | nil => intro g r; rfl
  | cons q rest ih =>
    intro g r
    rw [blockRepair]
    split
    · exact ih g r
    · rw [ih]
      unfold set_block
      rw [setIdxList_length]

theorem mem_blockOrder : ∀ br < BLOCK_SIDE, ∀ bc < BLOCK_SIDE,
    (br, bc) ∈ blockOrder := by
  decide

/-- Full structural description of the grid after the three unchecked
carving phases: the zero set splits as B (baseline, one per row), C
(column repair, fresh columns) and D (block repair, fresh blocks),
with row, column and block coverage. -/
theorem afterBlockRepair_spec (level : Nat) (r : Rng) :
    ∃ B C D : Finset Nat,
      Masked (new_solved r).1.puzzle (afterBlockRepair level r).1 (B ∪ C ∪ D) ∧
      (∀ i ∈ B, ∀ j ∈ B, rowOf i = rowOf j → i = j) ∧
      (∀ i ∈ C, ∀ j ∈ B, colOf j ≠ colOf i) ∧
      (∀ i ∈ C, ∀ j ∈ C, colOf i = colOf j → i = j) ∧
      (∀ i ∈ D, ∀ j ∈ B ∪ C, blockOrigin j ≠ blockOrigin i) ∧
      (∀ i ∈ D, ∀ j ∈ D, blockOrigin i = blockOrigin j → i = j) ∧
      (∀ rw, rw < SIDE → ∃ i ∈ B ∪ C ∪ D, i < CELL_COUNT ∧ rowOf i = rw) ∧
      (∀ c, c < SIDE → ∃ i ∈ B ∪ C ∪ D, i < CELL_COUNT ∧ colOf i = c) ∧
      (∀ br, br < BLOCK_SIDE → ∀ bc, bc < BLOCK_SIDE → ∃ i ∈ B ∪ C ∪ D,
        i < CELL_COUNT ∧ blockOrigin i = br * (SIDE * BLOCK_SIDE) + bc * BLOCK_SIDE) := by
  have hG := (new_solved_spec r).2.1
  obtain ⟨f, hf, hf0, hmB⟩ := afterBaseline_spec level r
  set G : Grid := (new_solved r).1.puzzle
  set g1 : Grid := (afterBaseline level r).1 with hg1
  set B : Finset Nat := (Finset.range SIDE).image (fun rw => rw * SIDE + f rw) with hB
  have hmemB : ∀ i, i ∈ B ↔ ∃ rw, rw < 9 ∧ i = rw * SIDE + f rw := by
    intro i
    rw [hB, Finset.mem_image]
    constructor
    · rintro ⟨rw, hrw, he⟩
      rw [Finset.mem_range] at hrw
      exact ⟨rw, by simpa [SIDE] using hrw, he.symm⟩
    · rintro ⟨rw, hrw, he⟩
      exact ⟨rw, Finset.mem_range.mpr (by simpa [SIDE] using hrw), he.symm⟩
  have hrowB : ∀ i ∈ B, rowOf i = i / 9 := by
    intro i hi
    simp [rowOf, SIDE]
  have hHB : ∀ i ∈ B, ∀ j ∈ B, rowOf i = rowOf j → i = j := by
    intro i hi j hj hrow
    obtain ⟨rw1, h1, he1⟩ := (hmemB i).mp hi
    obtain ⟨rw2, h2, he2⟩ := (hmemB j).mp hj
    have hv1 : f rw1 < 9 := by simpa [SIDE] using hf rw1
    have hv2 : f rw2 < 9 := by simpa [SIDE] using hf rw2
    simp only [rowOf, SIDE] at hrow he1 he2
    have : rw1 = rw2 := by omega
    subst this
    omega
  -- column repair
  have hlen1 : g1.length = CELL_COUNT := hmB.1
  obtain ⟨C, hc1, hc2, hc3, hc4, hc5, hc6⟩ := colRepair_spec (List.range SIDE) g1
    (afterBaseline level r).2 hlen1 (fun x hx => List.mem_range.mp hx)
    (List.nodup_range SIDE)
  set g2 : Grid := (afterColRepair level r).1 with hg2
  have hg2e : g2 = (colRepair g1 (List.range SIDE) (afterBaseline level r).2).1 := rfl
  have hmBC : Masked G g2 (B ∪ C) := by
    refine ⟨by rw [hg2e, colRepair_length]; exact hlen1, ?_, ?_, ?_⟩
    · intro i hi
      rcases Finset.mem_union.mp hi with hb | hcmem
      · exact hmB.2.1 i hb
      · exact hc1 i hcmem
    · intro i hi
      rw [hg2e, hc5]
      rcases Finset.mem_union.mp hi with hb | hcmem
      · split
        · rfl
        · exact hmB.2.2.1 i hb
      · rw [if_pos hcmem]
    · intro i hi hni
      rw [hg2e, hc5, if_neg (fun hcm => hni (Finset.mem_union_right B hcm))]
      exact hmB.2.2.2 i hi (fun hb => hni (Finset.mem_union_left C hb))
  have hHCB : ∀ i ∈ C, ∀ j ∈ B, colOf j ≠ colOf i := by
    intro i hi j hj he
    have hj81 : j < CELL_COUNT := hmB.2.1 j hj
    have hz : gget g1 j = 0 := hmB.2.2.1 j hj
    have := hc3 i hi (j / 9) (by simp only [SIDE, CELL_COUNT] at hj81 ⊢; omega)
    have hcell : j / 9 * SIDE + i % SIDE = j := by
      simp only [colOf, SIDE] at he
      simp only [SIDE, CELL_COUNT] at *
      omega
    rw [hcell] at this
    exact this hz
  have hHCC : ∀ i ∈ C, ∀ j ∈ C, colOf i = colOf j → i = j := by
    intro i hi j hj he
    exact hc4 i hi j hj (by simpa [colOf] using he)
  -- block repair
  have hlen2 : g2.length = CELL_COUNT := hmBC.1
  obtain ⟨D, hd1, hd2, hd3, hd4, hd5, hd6⟩ := blockRepair_spec blockOrder g2
    (afterColRepair level r).2 hlen2 (by decide) (by decide)
  set g3 : Grid := (afterBlockRepair level r).1 with hg3
  have hg3e : g3 = (blockRepair g2 blockOrder (afterColRepair level r).2).1 := rfl
  have hmBCD : Masked G g3 (B ∪ C ∪ D) := by
    refine ⟨by rw [hg3e, blockRepair_length]; exact hlen2, ?_, ?_, ?_⟩
    · intro i hi
      rcases Finset.mem_union.mp hi with hbc | hd
      · exact hmBC.2.1 i hbc
      · exact hd1 i hd
    · intro i hi
      rw [hg3e, hd5]
      rcases Finset.mem_union.mp hi with hbc | hd
      · split
        · rfl
        · exact hmBC.2.2.1 i hbc
      · rw [if_pos hd]
    · intro i hi hni
      rw [hg3e, hd5, if_neg (fun hdm => hni (Finset.mem_union_right _ hdm))]
      exact hmBC.2.2.2 i hi (fun hbc => hni (Finset.mem_union_left D hbc))
  have hHDBC : ∀ i ∈ D, ∀ j ∈ B ∪ C, blockOrigin j ≠ blockOrigin i := by
    intro i hi j hj he
    have hj81 : j < CELL_COUNT := hmBC.2.1 j hj
    have hz : gget g2 j = 0 := hmBC.2.2.1 j hj
    exact hd3 i hi j hj81 he hz
  refine ⟨B, C, D, hmBCD, hHB, hHCB, hHCC, hHDBC, hd4, ?_, ?_, ?_⟩
  · intro rw hrw
    refine ⟨rw * SIDE + f rw, ?_, ?_, ?_⟩
    · refine Finset.mem_union_left D (Finset.mem_union_left C ?_)
      exact (hmemB _).mpr ⟨rw, by simpa [SIDE] using hrw, rfl⟩
    · have := hf rw
      simp only [SIDE, CELL_COUNT] at *
      omega
    · have := hf rw
      simp only [rowOf, SIDE] at *
      omega
  · intro c hc
    obtain ⟨ro, hro, hz⟩ := hc6 c (List.mem_range.mpr hc)
    have hcell : ro * SIDE + c < CELL_COUNT := by
      simp only [SIDE, CELL_COUNT] at *
      omega
    have hmem2 : ro * SIDE + c ∈ B ∪ C :=
      (Masked_zero_iff hG hmBC hcell).mp (by rw [← hg2e] at hz; exact hz)
    refine ⟨ro * SIDE + c, Finset.mem_union_left D hmem2, hcell, ?_⟩
    simp only [colOf, SIDE] at *
    omega
  · intro br hbr bc hbc
    obtain ⟨j, hj, hbo, hz⟩ := hd6 (br, bc) (mem_blockOrder br hbr bc hbc)
    have hmem3 : j ∈ B ∪ C ∪ D :=
      (Masked_zero_iff hG hmBCD hj).mp (by rw [← hg3e] at hz; exact hz)
    exact ⟨j, hmem3, hj, hbo⟩

/-- The generated puzzle of Sudoku::new is the saved solution with a
set S of cells cleared, has exactly one valid completion, and S meets
every row, column and block. -/
theorem new_invariant (level : Nat) (r : Rng) :
    ∃ S : Finset Nat,
      Masked (new_solved r).1.puzzle (Sudoku.new level r).1.puzzle S ∧
      numSolutions (Sudoku.new level r).1.puzzle = 1 ∧
      (∀ rw, rw < SIDE → ∃ i ∈ S, i < CELL_COUNT ∧ rowOf i = rw) ∧
      (∀ c, c < SIDE → ∃ i ∈ S, i < CELL_COUNT ∧ colOf i = c) ∧
      (∀ br, br < BLOCK_SIDE → ∀ bc, bc < BLOCK_SIDE → ∃ i ∈ S,
        i < CELL_COUNT ∧ blockOrigin i = br * (SIDE * BLOCK_SIDE) + bc * BLOCK_SIDE) := by
  have hG := (new_solved_spec r).2.1
  obtain ⟨B, C, D, hm3, hHB, hHCB, hHCC, hHDBC, hHDD, hrowcov, hcolcov, hblkcov⟩ :=
    afterBlockRepair_spec level r
  have hn3 : numSolutions (afterBlockRepair level r).1 = 1 :=
    numSolutions_eq_one_of_masked hG hm3 hHB hHCB hHCC hHDBC hHDD
  obtain ⟨S2, hsub, hmk, h1⟩ := extraRemoval_preserves hG
    (shuffleL (List.range CELL_COUNT) (afterBlockRepair level r).2).1
    (afterBlockRepair level r).1 (level * 7) (B ∪ C ∪ D) hm3 hn3
  have hP : (Sudoku.new level r).1.puzzle =
      (extraRemoval (afterBlockRepair level r).1 (level * 7)
        (shuffleL (List.range CELL_COUNT) (afterBlockRepair level r).2).1).1 := rfl
  refine ⟨S2, by rw [hP]; exact hmk, by rw [hP]; exact h1, ?_, ?_, ?_⟩
  · intro rw hrw
    obtain ⟨i, hi, hlt, hro⟩ := hrowcov rw hrw
    exact ⟨i, hsub hi, hlt, hro⟩
  · intro c hc
    obtain ⟨i, hi, hlt, hco⟩ := hcolcov c hc
    exact ⟨i, hsub hi, hlt, hco⟩
  · intro br hbr bc hbc
    obtain ⟨i, hi, hlt, hbo⟩ := hblkcov br hbr bc hbc
    exact ⟨i, hsub hi, hlt, hbo⟩

theorem colRepair_noop : ∀ (cols : List Nat) (g : Grid) (r : Rng),
    (∀ c ∈ cols, (col g c).contains 0 = true) → colRepair g cols r = (g, r) := by
  intro cols
  induction cols with
  | nil => intro g r hall; rfl
  | cons c rest ih =>
    intro g r hall
    rw [colRepair, if_pos (hall c (List.mem_cons_self c rest))]
    exact ih g r (fun x hx => hall x (List.mem_cons_of_mem c hx))

theorem blockRepair_noop : ∀ (blocks : List (Nat × Nat)) (g : Grid) (r : Rng),
    (∀ p ∈ blocks, (block g p.1 p.2).contains 0 = true) →
    blockRepair g blocks r = (g, r) := by
  intro blocks
  induction blocks with
  | nil => intro g r hall; rfl
  | cons q rest ih =>
    intro g r hall
    rw [blockRepair, if_pos (hall q (List.mem_cons_self q rest))]
    exact ih g r (fun x hx => hall x (List.mem_cons_of_mem q hx))

theorem extraRemoval_zero_budget : ∀ (ps : List Nat) (g : Grid),
    extraRemoval g 0 ps = (g, 0) := by
  intro ps g
  match ps with
  | [] => rfl
  | pos :: rest => rw [extraRemoval, if_pos rfl]

theorem count_zero_map_range : ∀ (n : Nat) (h : Nat → Nat) (c0 : Nat), c0 < n →
    h c0 = 0 → (∀ c, c < n → c ≠ c0 → h c ≠ 0) →
    ((List.range n).map h).count 0 = 1 := by
  intro n
  induction n with
  | zero =>
    intro h c0 hc0
    omega
  | succ n ih =>
    intro h c0 hc0 hz hnz
    rw [List.range_succ, List.map_append, List.count_append]
    by_cases he : c0 = n
    · have hpre : ((List.range n).map h).count 0 = 0 := by
        rw [List.count_eq_zero]
        intro hm
        rw [List.mem_map] at hm
        obtain ⟨c, hc, hcz⟩ := hm
        rw [List.mem_range] at hc
        exact hnz c (by omega) (by omega) hcz
      rw [hpre]
      simp only [List.map_cons, List.map_nil, List.count_cons]
      rw [← he, hz]
      simp
    · have hpre : ((List.range n).map h).count 0 = 1 :=
        ih h c0 (by omega) hz (fun c hc hcne => hnz c (by omega) hcne)
      rw [hpre]
      simp only [List.map_cons, List.map_nil, List.count_cons]
      have : h n ≠ 0 := hnz n (by omega) (fun hh => he hh.symm)
      simp [this]

/-- Level 0 exact shape under block coverage: one empty cell per row,
one per column, nine in total. -/
theorem level0_shape (r : Rng) (hcov : BlocksCovered (level0Perm r)) :
    (∀ rw, rw < SIDE → (rowList (Sudoku.new 0 r).1.puzzle rw).count 0 = 1) ∧
    (∀ c, c < SIDE → (col (Sudoku.new 0 r).1.puzzle c).count 0 = 1) ∧
    zcount (Sudoku.new 0 r).1.puzzle = 9 := by
  have hG := (new_solved_spec r).2.1
  obtain ⟨f, hf, hf0, hm1⟩ := afterBaseline_spec 0 r
  have hfe : f = fun rw => (level0Perm r).getD rw 0 := hf0 rfl
  set a : List Nat := level0Perm r with ha
  have hap : List.Perm a (List.range 9) := by
    rw [ha]
    have := shuffleL_perm (List.range SIDE) (new_solved r).2
    simpa [SIDE, level0Perm] using this
  have halen : a.length = 9 := by rw [hap.length_eq]; simp
  have hand : a.Nodup := hap.nodup_iff.mpr (List.nodup_range 9)
  have hmapa : (List.range 9).map (fun k => a.getD k 0) = a := by
    have := map_getD_range a
    rw [halen] at this
    exact this
  have hinjf : ∀ x, x < 9 → ∀ y, y < 9 → x ≠ y → f x ≠ f y := by
    intro x hx y hy hne
    rw [hfe]
    have : ((List.range 9).map (fun k => a.getD k 0)).Nodup := by
      rw [hmapa]
      exact hand
    exact nodup_map_range_iff.mp this x hx y hy hne
  have hsurjf : ∀ c, c < 9 → ∃ rw, rw < 9 ∧ f rw = c := by
    intro c hc
    have : c ∈ a := hap.mem_iff.mpr (List.mem_range.mpr hc)
    rw [List.mem_iff_getElem] at this
    obtain ⟨k, hk, he⟩ := this
    refine ⟨k, by omega, ?_⟩
    rw [hfe]
    show a.getD k 0 = c
    rw [List.getD_eq_getElem a 0 hk]
    exact he
  set B : Finset Nat := (Finset.range SIDE).image (fun rw => rw * SIDE + f rw) with hB
  have hmemB : ∀ i, i ∈ B ↔ ∃ rw, rw < 9 ∧ i = rw * 9 + f rw := by
    intro i
    rw [hB, Finset.mem_image]
    constructor
    · rintro ⟨rw, hrw, he⟩
      rw [Finset.mem_range] at hrw
      have he2 : rw * SIDE + f rw = i := he
      exact ⟨rw, by simpa [SIDE] using hrw, by simp only [SIDE] at he2; omega⟩
    · rintro ⟨rw, hrw, he⟩
      refine ⟨rw, Finset.mem_range.mpr (by simpa [SIDE] using hrw), ?_⟩
      show rw * SIDE + f rw = i
      simp only [SIDE]
      omega
  set g1 : Grid := (afterBaseline 0 r).1 with hg1
  -- column repair is a no-op
  have hcolnoop : colRepair g1 (List.range SIDE) (afterBaseline 0 r).2 =
      (g1, (afterBaseline 0 r).2) := by
    refine colRepair_noop _ _ _ ?_
    intro c hc
    rw [List.mem_range] at hc
    obtain ⟨rw, hrw, hfc⟩ := hsurjf c (by simpa [SIDE] using hc)
    rw [col_contains_zero_iff]
    refine ⟨rw, by simpa [SIDE] using hrw, ?_⟩
    have : rw * SIDE + c ∈ B := (hmemB _).mpr ⟨rw, hrw, by simp only [SIDE]; omega⟩
    exact hm1.2.2.1 _ this
  have hg2 : (afterColRepair 0 r).1 = g1 := by
    rw [afterColRepair]
    rw [← hg1, hcolnoop]
  have hg2r : (afterColRepair 0 r).2 = (afterBaseline 0 r).2 := by
    rw [afterColRepair]
    rw [← hg1, hcolnoop]
  -- block repair is a no-op
  have hblknoop : blockRepair g1 blockOrder (afterBaseline 0 r).2 =
      (g1, (afterBaseline 0 r).2) := by
    refine blockRepair_noop _ _ _ ?_
    intro p hp
    have hpb : p.1 < BLOCK_SIDE ∧ p.2 < BLOCK_SIDE := by
      rcases p with ⟨x, y⟩
      simp only [blockOrder, List.mem_cons] at hp
      rcases hp with h | h | h | h | h | h | h | h | h | h <;>
        first
          | (injection h with h1 h2; subst h1; subst h2; exact ⟨by decide, by decide⟩)
          | exact absurd h (List.not_mem_nil _)
    obtain ⟨rw, hrw, hbre, hbce⟩ := hcov p.1 hpb.1 p.2 hpb.2
    rw [block_contains_zero_iff]
    have hfrw : f rw < 9 := by simpa [SIDE] using hf rw
    have hfa : f rw = a.getD rw 0 := by rw [hfe]
    refine ⟨rw % BLOCK_SIDE * BLOCK_SIDE + f rw % BLOCK_SIDE, ?_, ?_⟩
    · simp only [SIDE, BLOCK_SIDE]
      omega
    · have hcell : (p.1 * BLOCK_SIDE +
          (rw % BLOCK_SIDE * BLOCK_SIDE + f rw % BLOCK_SIDE) / BLOCK_SIDE) * SIDE +
          (p.2 * BLOCK_SIDE +
            (rw % BLOCK_SIDE * BLOCK_SIDE + f rw % BLOCK_SIDE) % BLOCK_SIDE) =
          rw * 9 + f rw := by
        simp only [SIDE, BLOCK_SIDE] at *
        rw [hfa] at *
        omega
      rw [hcell]
      exact hm1.2.2.1 _ ((hmemB _).mpr ⟨rw, by simpa [SIDE] using hrw, rfl⟩)
  have hg3 : (afterBlockRepair 0 r).1 = g1 := by
    rw [afterBlockRepair, hg2, hg2r, hblknoop]
  have hpz : (Sudoku.new 0 r).1.puzzle = g1 := by
    show (extraRemoval (afterBlockRepair 0 r).1 (0 * 7)
      (shuffleL (List.range CELL_COUNT) (afterBlockRepair 0 r).2).1).1 = g1
    rw [hg3]
    have h0 : (0 : Nat) * 7 = 0 := rfl
    rw [h0, extraRemoval_zero_budget]
  rw [hpz]
  have hzero_iff : ∀ i, i < CELL_COUNT → (gget g1 i = 0 ↔ i ∈ B) := by
    intro i hi
    exact Masked_zero_iff hG hm1 hi
  refine ⟨?_, ?_, ?_⟩
  · intro rw hrw
    rw [rowList_eq]
    refine count_zero_map_range 9 _ (f rw) (by simpa [SIDE] using hf rw) ?_ ?_
    · exact hm1.2.2.1 _ ((hmemB _).mpr ⟨rw, by simpa [SIDE] using hrw, rfl⟩)
    · intro c hc hcne hz
      have hrw9 : rw < 9 := by simpa [SIDE] using hrw
      have hicell : rw * 9 + c < CELL_COUNT := by
        simp only [CELL_COUNT]
        omega
      have := (hzero_iff _ hicell).mp hz
      obtain ⟨rw2, hrw2, he⟩ := (hmemB _).mp this
      have hfrw2 : f rw2 < 9 := by simpa [SIDE] using hf rw2
      have : rw2 = rw := by omega
      subst this
      omega
  · intro c hc
    have hc9 : c < 9 := by simpa [SIDE] using hc
    obtain ⟨rw0, hrw0, hfc⟩ := hsurjf c hc9
    rw [col_eq]
    refine count_zero_map_range 9 _ rw0 hrw0 ?_ ?_
    · have : rw0 * 9 + c ∈ B := (hmemB _).mpr ⟨rw0, hrw0, by omega⟩
      exact hm1.2.2.1 _ this
    · intro ro hro hrone hz
      have hicell : ro * 9 + c < CELL_COUNT := by
        simp only [CELL_COUNT]
        omega
      have := (hzero_iff _ hicell).mp hz
      obtain ⟨rw2, hrw2, he⟩ := (hmemB _).mp this
      have hfrw2 : f rw2 < 9 := by simpa [SIDE] using hf rw2
      have hre : rw2 = ro := by omega
      have hfc2 : f rw2 = c := by omega
      have hne2 : rw2 ≠ rw0 := by
        intro hx
        apply hrone
        omega
      exact hinjf rw2 hrw2 rw0 hrw0 hne2 (by omega)
  · have hzs : zeroSet g1 = B := by
      ext i
      simp only [zeroSet, Finset.mem_filter, Finset.mem_range]
      constructor
      · rintro ⟨hi, hz⟩
        exact (hzero_iff i (by simpa [CELL_COUNT] using hi)).mp hz
      · intro hi
        have hlt : i < CELL_COUNT := hm1.2.1 i hi
        exact ⟨by simpa [CELL_COUNT] using hlt, (hzero_iff i hlt).mpr hi⟩
    unfold zcount
    rw [hzs, hB]
    rw [Finset.card_image_of_injOn]
    · simp [SIDE]
    · intro x hx y hy he
      rw [Finset.mem_coe, Finset.mem_range] at hx hy
      have hfx : f x < SIDE := hf x
      have hfy : f y < SIDE := hf y
      simp only [SIDE] at *
      omega

/-- The two solver presentations agree everywhere. -/
theorem solve_fromE_eq : ∀ (fuel : Nat) (g : Grid) (idx : Nat) (r : Rng),
    solve_from fuel g idx r = solve_fromE fuel g idx r := by
  intro fuel
  induction fuel with
  | zero =>
    intro g idx r
    rw [solve_from, solve_fromE]
  | succ fuel ih =>
    have htry : ∀ (ds : List Nat) (g : Grid) (idx : Nat) (r : Rng),
        try_digits fuel g idx ds r = try_digitsE (solve_fromE fuel) g idx ds r := by
      intro ds
      induction ds with
      | nil =>
        intro g idx r
        rw [try_digits, try_digitsE]
      | cons v rest ihd =>
        intro g idx r
        rw [try_digits, try_digitsE]
        by_cases hc : can_place g idx v = true
        · rw [if_pos hc, if_pos hc, ← ih]
          rcases hr : solve_from fuel (g.set idx v) (idx + 1) r with ⟨b, g2, r2⟩
          cases b
          · exact ihd (g2.set idx 0) idx r2
          · rfl
        · rw [if_neg hc, if_neg hc]
          exact ihd g idx r
    intro g idx r
    rw [solve_from, solve_fromE]
    by_cases h1 : idx = CELL_COUNT
    · rw [if_pos h1, if_pos h1]
    · rw [if_neg h1, if_neg h1]
      by_cases h2 : gget g idx ≠ 0
      · rw [if_pos h2, if_pos h2]
        exact ih g (idx + 1) r
      · rw [if_neg h2, if_neg h2]
        exact htry (shuffleL [1, 2, 3, 4, 5, 6, 7, 8, 9] r).1 g idx
          (shuffleL [1, 2, 3, 4, 5, 6, 7, 8, 9] r).2

/-- The two counter presentations agree everywhere. -/
theorem count_solutions_fromE_eq : ∀ (fuel : Nat) (g : Grid) (idx limit : Nat),
    count_solutions_from fuel g idx limit = count_solutions_fromE fuel g idx limit := by
  intro fuel
  induction fuel with
  | zero =>
    intro g idx limit
    rw [count_solutions_from, count_solutions_fromE]
  | succ fuel ih =>
    have hdig : ∀ (ds : List Nat) (g : Grid) (idx count limit : Nat),
        count_digits fuel g idx ds count limit =
          count_digitsE (count_solutions_fromE fuel) g idx ds count limit := by
      intro ds
      induction ds with
      | nil =>
        intro g idx count limit
        rw [count_digits, count_digitsE]
      | cons v rest ihd =>
        intro g idx count limit
        rw [count_digits, count_digitsE]
        by_cases hc : can_place g idx v = true
        · rw [if_pos hc, if_pos hc, ← ih]
          rcases hr : count_solutions_from fuel (g.set idx v) (idx + 1) (limit - count)
            with ⟨found, g2⟩
          show (if limit ≤ count + found then (count + found, g2.set idx 0)
                else count_digits fuel (g2.set idx 0) idx rest (count + found) limit) =
              (if limit ≤ count + found then (count + found, g2.set idx 0)
                else count_digitsE (count_solutions_fromE fuel) (g2.set idx 0) idx rest
                  (count + found) limit)
          by_cases hl : limit ≤ count + found
          · rw [if_pos hl, if_pos hl]
          · rw [if_neg hl, if_neg hl]
            exact ihd (g2.set idx 0) idx (count + found) limit
        · rw [if_neg hc, if_neg hc]
          exact ihd g idx count limit
    intro g idx limit
    rw [count_solutions_from, count_solutions_fromE]
    by_cases h0 : limit = 0
    · rw [if_pos h0, if_pos h0]
    · rw [if_neg h0, if_neg h0]
      by_cases h1 : idx = CELL_COUNT
      · rw [if_pos h1, if_pos h1]
      · rw [if_neg h1, if_neg h1]
        by_cases h2 : gget g idx ≠ 0
        · rw [if_pos h2, if_pos h2]
          exact ih g (idx + 1) limit
        · rw [if_neg h2, if_neg h2]
          exact hdig [1, 2, 3, 4, 5, 6, 7, 8, 9] g idx 0 limit

/-- The public counter through its executable twin. -/
theorem count_solutions_eval (g : Grid) (limit : Nat) :
    count_solutions g limit = (count_solutions_fromE (CELL_COUNT + 1) g 0 limit).1 := by
  rw [count_solutions, count_solutions_fromE_eq]

/-- The uniqueness test through its executable twin. -/
theorem has_unique_solution_eval (g : Grid) :
    has_unique_solution g = ((count_solutions_fromE (CELL_COUNT + 1) g 0 2).1 == 1) := by
  rw [has_unique_solution, count_solutions_eval]

/-- Under the rngBad oracle the solver is steered to the cyclic grid
and leaves exactly the tail events unconsumed. -/
theorem new_solved_rngBad :
    new_solved rngBad = ({ puzzle := cyclicGrid, solution := zeros81 },
      [RVal.idxs [3, 4, 5, 6, 7, 8, 0, 1, 2]] ++ List.replicate 6 (RVal.num 0)) := by
  have hs : solve_fromE (CELL_COUNT + 1) zeros81 0 rngBad =
      (true, cyclicGrid,
        [RVal.idxs [3, 4, 5, 6, 7, 8, 0, 1, 2]] ++ List.replicate 6 (RVal.num 0)) := by
    decide
  rw [new_solved, solve_fromE_eq, hs]

/-- Under the rngCov oracle the solver is steered to the cyclic grid
and leaves exactly the covering permutation event unconsumed. -/
theorem new_solved_rngCov :
    new_solved rngCov = ({ puzzle := cyclicGrid, solution := zeros81 },
      [RVal.idxs [0, 3, 6, 1, 4, 7, 2, 5, 8]]) := by
  have hs : solve_fromE (CELL_COUNT + 1) zeros81 0 rngCov =
      (true, cyclicGrid, [RVal.idxs [0, 3, 6, 1, 4, 7, 2, 5, 8]]) := by
    decide
  rw [new_solved, solve_fromE_eq, hs]

/-- Claim C1: for every difficulty level in the supported range and
every random sequence, the puzzle returned by Sudoku::new has exactly
one completion: count_solutions(puzzle, 2) equals 1. -/
theorem c1_new_puzzle_has_unique_completion (level : Nat) (r : Rng)
    (hlevel : level ≤ MAX_DIFFICULTY_LEVEL) :
    count_solutions (Sudoku.new level r).1.puzzle 2 = 1 := by
  obtain ⟨S, hm, h1, _, _, _⟩ := new_invariant level r
  have hG := (new_solved_spec r).2.1
  rw [count_solutions_eq_min (Masked_wellformed hG hm) (Masked_consistent hG hm) 2, h1]
  decide

theorem c1_witness :
    0 ≤ MAX_DIFFICULTY_LEVEL ∧ count_solutions (Sudoku.new 0 []).1.puzzle 2 = 1 :=
  ⟨by decide, c1_new_puzzle_has_unique_completion 0 [] (by decide)⟩

/-- Claim C2: for every random sequence, solve_from started at index 0
on the all zero grid succeeds, and the grid new_solved returns has
every row, column and block a permutation of 1..9 with no zeros. -/
theorem c2_new_solved_valid (r : Rng) :
    (solve_from (CELL_COUNT + 1) zeros81 0 r).1 = true ∧
    (new_solved r).1.puzzle = (solve_from (CELL_COUNT + 1) zeros81 0 r).2.1 ∧
    (∀ i, i < CELL_COUNT → gget (new_solved r).1.puzzle i ≠ 0) ∧
    (∀ n, n < SIDE → List.Perm (rowList (new_solved r).1.puzzle n) oneToNine) ∧
    (∀ n, n < SIDE → List.Perm (col (new_solved r).1.puzzle n) oneToNine) ∧
    (∀ br, br < BLOCK_SIDE → ∀ bc, bc < BLOCK_SIDE →
      List.Perm (block (new_solved r).1.puzzle br bc) oneToNine) := by
  obtain ⟨hsucc, hv, hsol⟩ := new_solved_spec r
  refine ⟨hsucc, ?_, validPerm_full hv, hv.2.1, hv.2.2.1, hv.2.2.2⟩
  rcases he : solve_from (CELL_COUNT + 1) zeros81 0 r with ⟨b, g2, r2⟩
  rw [new_solved, he]

/-- Claim C3 (amended): on an 81 cell grid with digits 0..9 whose
clues are mutually consistent, count_solutions(g, limit) equals the
minimum of limit and the exact number of valid completions of g,
where solutionsList enumerates exactly the valid completions, without
duplicates; in particular the result is at most limit. -/
theorem c3_count_solutions_contract (g : Grid) (limit : Nat)
    (hwf : wellformed g) (hcons : consistent g) :
    count_solutions g limit = min limit (numSolutions g) ∧
    count_solutions g limit ≤ limit ∧
    (∀ h, h ∈ solutionsList g ↔ IsCompletion g h) ∧
    (solutionsList g).Nodup := by
  have h1 := count_solutions_eq_min hwf hcons limit
  refine ⟨h1, ?_, ?_, ?_⟩
  · rw [h1]
    exact Nat.min_le_left limit _
  · intro h
    exact mem_expandFrom (CELL_COUNT + 1) (by omega) (by omega) hwf.1
      (filledBelow_zero g)
  · exact expandFrom_nodup (CELL_COUNT + 1) (by omega) (by omega) hwf.1
      (filledBelow_zero g)

/-- Claim C3 fails as stated: on the all ones grid (cells already
filled are kept fixed, and there are no empty cells) the counter
reports one completion while the exact number of valid completions is
zero. -/
theorem c3_counterexample :
    ¬ (count_solutions onesGrid 2 = min 2 (numSolutions onesGrid)) := by
  have ha : count_solutions onesGrid 2 = 1 := by
    rw [count_solutions_eval]
    decide
  have hb : numSolutions onesGrid = 0 := by
    have hnc : ¬ consistent onesGrid := by decide
    rw [numSolutions, solutionsList, expandFrom_nil_of_not_consistent (CELL_COUNT + 1) hnc]
    rfl
  rw [ha, hb]
  decide

theorem c3_witness :
    wellformed oneEmptyGrid ∧ consistent oneEmptyGrid ∧
      (count_solutions oneEmptyGrid 2 = min 2 (numSolutions oneEmptyGrid) ∧
       count_solutions oneEmptyGrid 2 ≤ 2 ∧
       (∀ h, h ∈ solutionsList oneEmptyGrid ↔ IsCompletion oneEmptyGrid h) ∧
       (solutionsList oneEmptyGrid).Nodup) :=
  ⟨by decide, by decide,
    c3_count_solutions_contract oneEmptyGrid 2 (by decide) (by decide)⟩

/-- Claim C4: count_solutions never mutates the grid it is asked to
evaluate: the worker returns the grid it received, at the public entry
point and from any position, so the caller observes the same grid
after the call. -/
theorem c4_count_solutions_non_mutating (g : Grid) (limit : Nat) :
    (count_solutions_from (CELL_COUNT + 1) g 0 limit).2 = g ∧
    count_solutions g limit = (count_solutions_from (CELL_COUNT + 1) g 0 limit).1 ∧
    (∀ fuel idx, (count_solutions_from fuel g idx limit).2 = g) :=
  ⟨count_solutions_from_grid (CELL_COUNT + 1) g 0 limit, rfl,
    fun fuel idx => count_solutions_from_grid fuel g idx limit⟩

/-- Claim C5 (amended): for generate(0), when the drawn column
permutation places a cleared cell in every block, the puzzle has
exactly one empty cell per row and per column, nine in total; a
permutation missing some block makes the block repair clear extra
cells, refuting the unconditional claim. -/
theorem c5_level0_shape (r : Rng) (hcov : BlocksCovered (level0Perm r)) :
    (∀ rw, rw < SIDE → (rowList (Sudoku.new 0 r).1.puzzle rw).count 0 = 1) ∧
    (∀ c, c < SIDE → (col (Sudoku.new 0 r).1.puzzle c).count 0 = 1) ∧
    zcount (Sudoku.new 0 r).1.puzzle = 9 :=
  level0_shape r hcov

/-- Claim C5 fails as stated: with this oracle the level 0 permutation
leaves six blocks untouched, the block repair then clears six extra
cells, and the puzzle has rows and columns with several empty cells
and fifteen empties in total. -/
theorem c5_counterexample :
    ¬ ((∀ rw, rw < SIDE → (rowList (Sudoku.new 0 rngBad).1.puzzle rw).count 0 = 1) ∧
       (∀ c, c < SIDE → (col (Sudoku.new 0 rngBad).1.puzzle c).count 0 = 1) ∧
       zcount (Sudoku.new 0 rngBad).1.puzzle = 9) := by
  intro hcl
  have h0 := hcl.1 0 (by decide)
  rw [Sudoku.new, afterBlockRepair, afterColRepair, afterBaseline, new_solved_rngBad] at h0
  revert h0
  decide

theorem c5_witness :
    BlocksCovered (level0Perm rngCov) ∧
      ((∀ rw, rw < SIDE → (rowList (Sudoku.new 0 rngCov).1.puzzle rw).count 0 = 1) ∧
       (∀ c, c < SIDE → (col (Sudoku.new 0 rngCov).1.puzzle c).count 0 = 1) ∧
       zcount (Sudoku.new 0 rngCov).1.puzzle = 9) := by
  have hperm : level0Perm rngCov = [0, 3, 6, 1, 4, 7, 2, 5, 8] := by
    rw [level0Perm, new_solved_rngCov]
    decide
  have hcov : BlocksCovered (level0Perm rngCov) := by
    rw [hperm]
    decide
  exact ⟨hcov, c5_level0_shape rngCov hcov⟩

/-- Claim C6: for an empty cell i of the board and a digit v, the
can_place check accepts v exactly when no cell sharing the row i / 9,
the column i % 9 or the block with origin (row/3)*27 + (col/3)*3
holds v. -/
theorem c6_can_place_characterisation (g : Grid) (i v : Nat) (hi : i < CELL_COUNT)
    (h0 : gget g i = 0) (hv1 : 1 ≤ v) (hv9 : v ≤ 9) :
    can_place g i v = true ↔
      ∀ j, j < CELL_COUNT → sharesUnit i j → gget g j ≠ v :=
  can_place_iff g hi v

theorem c6_witness :
    (0 : Nat) < CELL_COUNT ∧ gget pairGrid 0 = 0 ∧ (1 : Nat) ≤ 5 ∧ (5 : Nat) ≤ 9 ∧
      (can_place pairGrid 0 5 = true ↔
        ∀ j, j < CELL_COUNT → sharesUnit 0 j → gget pairGrid j ≠ 5) :=
  ⟨by decide, by decide, by decide, by decide,
    c6_can_place_characterisation pairGrid 0 5 (by decide) (by decide)
      (by decide) (by decide)⟩

/-- Claim C7: every non zero cell of the generated puzzle equals the
cell at the same index in the stored solution grid. -/
theorem c7_clue_fidelity (level : Nat) (r : Rng)
    (hlevel : level ≤ MAX_DIFFICULTY_LEVEL) :
    ∀ i, i < CELL_COUNT → gget (Sudoku.new level r).1.puzzle i ≠ 0 →
      gget (Sudoku.new level r).1.puzzle i = gget (Sudoku.new level r).1.solution i := by
  obtain ⟨S, hm, _, _, _, _⟩ := new_invariant level r
  intro i hi hnz
  have hsol : (Sudoku.new level r).1.solution = (new_solved r).1.puzzle := rfl
  rw [hsol]
  exact (Masked_extendsClues hm i hi hnz).symm

theorem c7_witness :
    0 ≤ MAX_DIFFICULTY_LEVEL ∧
      (∀ i, i < CELL_COUNT → gget (Sudoku.new 0 []).1.puzzle i ≠ 0 →
        gget (Sudoku.new 0 []).1.puzzle i = gget (Sudoku.new 0 []).1.solution i) :=
  ⟨by decide, c7_clue_fidelity 0 [] (by decide)⟩

/-- Claim C8: one iteration of the extra removal loop preserves
has_unique_solution, and when the tentative clear loses uniqueness the
iteration restores the grid exactly. -/
theorem c8_extra_step_preserves_uniqueness (g : Grid) (more pos : Nat)
    (hu : has_unique_solution g = true) :
    has_unique_solution (extraStep g more pos).1 = true ∧
    (has_unique_solution (g.set pos 0) ≠ true → (extraStep g more pos).1 = g) := by
  constructor
  · unfold extraStep
    by_cases h1 : more = 0
    · rw [if_pos h1]
      exact hu
    · rw [if_neg h1]
      by_cases h2 : gget g pos ≠ 0
      · rw [if_pos h2]
        by_cases h3 : has_unique_solution (g.set pos 0) = true
        · rw [if_pos h3]
          exact h3
        · rw [if_neg h3]
          show has_unique_solution ((g.set pos 0).set pos (gget g pos)) = true
          rw [set_zero_set_restore]
          exact hu
      · rw [if_neg h2]
        exact hu
  · intro hnu
    unfold extraStep
    by_cases h1 : more = 0
    · rw [if_pos h1]
    · rw [if_neg h1]
      by_cases h2 : gget g pos ≠ 0
      · rw [if_pos h2, if_neg hnu]
        show (g.set pos 0).set pos (gget g pos) = g
        exact set_zero_set_restore g pos
      · rw [if_neg h2]

theorem c8_witness :
    has_unique_solution oneEmptyGrid = true ∧
      (has_unique_solution (extraStep oneEmptyGrid 5 7).1 = true ∧
       (has_unique_solution (oneEmptyGrid.set 7 0) ≠ true →
         (extraStep oneEmptyGrid 5 7).1 = oneEmptyGrid)) :=
  ⟨by rw [has_unique_solution_eval]; decide,
    c8_extra_step_preserves_uniqueness oneEmptyGrid 5 7
      (by rw [has_unique_solution_eval]; decide)⟩

/-- Claim C9: the difficulty driven extra removal phase clears at most
level * 7 additional cells: every kept removal spends one unit of the
budget and the loop stops when the budget or the position list is
exhausted. -/
theorem c9_extra_removal_budget (level : Nat) (g : Grid) (ps : List Nat)
    (hlevel : level ≤ MAX_DIFFICULTY_LEVEL) (hlen : g.length = CELL_COUNT) :
    zcount (extraRemoval g (level * 7) ps).1 ≤ zcount g + level * 7 :=
  extraRemoval_zcount ps g (level * 7) hlen

theorem c9_witness :
    0 ≤ MAX_DIFFICULTY_LEVEL ∧ zeros81.length = CELL_COUNT ∧
      zcount (extraRemoval zeros81 (0 * 7) []).1 ≤ zcount zeros81 + 0 * 7 :=
  ⟨by decide, by decide, c9_extra_removal_budget 0 zeros81 [] (by decide) (by decide)⟩

/-- Claim C10: the puzzle returned by Sudoku::new has at least one
empty cell in every row, in every column and in every block. -/
theorem c10_every_unit_has_empty_cell (level : Nat) (r : Rng)
    (hlevel : level ≤ MAX_DIFFICULTY_LEVEL) :
    (∀ rw, rw < SIDE → ∃ c, c < SIDE ∧
      gget (Sudoku.new level r).1.puzzle (rw * SIDE + c) = 0) ∧
    (∀ c, c < SIDE → ∃ ro, ro < SIDE ∧
      gget (Sudoku.new level r).1.puzzle (ro * SIDE + c) = 0) ∧
    (∀ br, br < BLOCK_SIDE → ∀ bc, bc < BLOCK_SIDE → ∃ k, k < SIDE ∧
      gget (Sudoku.new level r).1.puzzle
        ((br * BLOCK_SIDE + k / BLOCK_SIDE) * SIDE + (bc * BLOCK_SIDE + k % BLOCK_SIDE)) = 0) := by
  obtain ⟨S, hm, _, hrow, hcol, hblk⟩ := new_invariant level r
  refine ⟨?_, ?_, ?_⟩
  · intro rw hrw
    obtain ⟨i, hiS, hilt, hro⟩ := hrow rw hrw
    refine ⟨i % 9, by simp only [SIDE]; omega, ?_⟩
    have hcell : rw * SIDE + i % 9 = i := by
      simp only [rowOf, SIDE] at hro ⊢
      simp only [CELL_COUNT] at hilt
      omega
    rw [hcell]
    exact hm.2.2.1 i hiS
  · intro c hc
    obtain ⟨i, hiS, hilt, hco⟩ := hcol c hc
    refine ⟨i / 9, by simp only [SIDE]; simp only [CELL_COUNT] at hilt; omega, ?_⟩
    have hcell : i / 9 * SIDE + c = i := by
      simp only [colOf, SIDE] at hco ⊢
      simp only [CELL_COUNT] at hilt
      omega
    rw [hcell]
    exact hm.2.2.1 i hiS
  · intro br hbr bc hbc
    obtain ⟨i, hiS, hilt, hbo⟩ := hblk br hbr bc hbc
    obtain ⟨k, hk, he⟩ := cell_of_blockOrigin hbr hbc hilt hbo
    refine ⟨k, hk, ?_⟩
    rw [← he]
    exact hm.2.2.1 i hiS

theorem c10_witness :
    0 ≤ MAX_DIFFICULTY_LEVEL ∧
      ((∀ rw, rw < SIDE → ∃ c, c < SIDE ∧
        gget (Sudoku.new 0 []).1.puzzle (rw * SIDE + c) = 0) ∧
       (∀ c, c < SIDE → ∃ ro, ro < SIDE ∧
        gget (Sudoku.new 0 []).1.puzzle (ro * SIDE + c) = 0) ∧
       (∀ br, br < BLOCK_SIDE → ∀ bc, bc < BLOCK_SIDE → ∃ k, k < SIDE ∧
        gget (Sudoku.new 0 []).1.puzzle
          ((br * BLOCK_SIDE + k / BLOCK_SIDE) * SIDE + (bc * BLOCK_SIDE + k % BLOCK_SIDE)) = 0)) :=
  ⟨by decide, c10_every_unit_has_empty_cell 0 [] (by decide)⟩
